import Mathlib

/-!
# Verification of the boxframe WASM compute kernel

Shallow embedding of `src/wasm/wasm_frame/src/{statistics,sorting,filtering,
core,series,groupby}.rs` and proofs about the embedded operations.

Modelling conventions:
* `f64` values are modelled by `F64`: NaN, the two infinities, and exact
  rational finite values.  All inputs appearing in the claims are small
  integers on which IEEE double arithmetic is exact, so the rational model
  agrees with the source on every concrete computation below; the
  universally quantified theorems are statements about the *relative*
  behaviour of two embedded computations that perform identical operation
  sequences, which is insensitive to the rounding model.
* Raw pointers never appear: a registry entry is its value list.  The
  source substitutes `(null, 0)` for an absent handle, so the
  `ptr.is_null()` tests of the source are modelled as "handle absent";
  a present handle's buffer pointer is never null (allocation failure is
  fatal per the engine's contract).
* Rust `HashMap<String, V>` is modelled as an association list updated in
  first-insertion order.  Every key enumeration of the source is either
  sorted immediately afterwards or used only for its contents, so the
  arbitrary hash iteration order of the source is irrelevant; this is
  proved where it matters via permutation arguments.
* Rust's stable `sort_by` with a total-preorder comparator `c` is modelled
  as insertion sort with the relation `c a b ≠ .gt`, which produces the
  unique stable order: elements are inserted before the first strictly
  greater element, so ties keep their original relative order.
-/

namespace BoxFrame

/-- An exact rational in lowest terms (`den` positive, kept normalized by
every constructor below): the payload of finite `f64` model values.  A
self-contained structure is used instead of Mathlib's `ℚ` so that every
operation reduces inside the kernel, making concrete runs of the embedded
code checkable by `decide`/`rfl`.  No algebraic law of these rationals is
assumed anywhere: all equivalence proofs below compare two runs of the
same operation sequence. -/
structure MRat where
  num : ℤ
  den : ℕ
deriving DecidableEq, Repr

namespace MRat

/-- Reduce `n / d` (with `d : ℕ`) to lowest terms. -/
def normalize (n : ℤ) (d : ℕ) : MRat :=
  let g := Nat.gcd n.natAbs d
  if g = 0 then ⟨0, 1⟩ else ⟨n / (g : ℤ), d / g⟩

/-- Reduce `n / d` with a signed denominator. -/
def normalizeInt (n d : ℤ) : MRat :=
  if d < 0 then normalize (-n) d.natAbs else normalize n d.natAbs

instance : OfNat MRat n := ⟨⟨Int.ofNat n, 1⟩⟩

instance : NatCast MRat := ⟨fun n => ⟨Int.ofNat n, 1⟩⟩

/-- Exact addition. -/
def add (a b : MRat) : MRat :=
  normalize (a.num * (b.den : ℤ) + b.num * (a.den : ℤ)) (a.den * b.den)

/-- Exact negation (normalization is preserved). -/
def neg (a : MRat) : MRat := ⟨-a.num, a.den⟩

/-- Exact multiplication. -/
def mul (a b : MRat) : MRat := normalize (a.num * b.num) (a.den * b.den)

/-- Exact division (caller guards the zero divisor). -/
def div (a b : MRat) : MRat :=
  normalizeInt (a.num * (b.den : ℤ)) ((a.den : ℤ) * b.num)

/-- Order by cross multiplication (denominators are nonnegative). -/
def blt (a b : MRat) : Bool := a.num * (b.den : ℤ) < b.num * (a.den : ℤ)

end MRat

/-- Model of an IEEE `f64` value: NaN, infinities, or an exact rational.
Square roots whose exact value is irrational are outside the exact fragment
this model covers and are collapsed by `fsqrt` below; no theorem in this
file depends on that branch. -/
inductive F64 where
  | nan : F64
  | inf : F64
  | neginf : F64
  | val : MRat → F64
deriving DecidableEq, Repr, Inhabited

namespace F64

/-- `f64::is_nan`. -/
def isNan : F64 → Bool
  | .nan => true
  | _ => false

/-- IEEE addition on the model (exact on rationals). -/
def fadd : F64 → F64 → F64
  | .nan, _ => .nan
  | _, .nan => .nan
  | .inf, .neginf => .nan
  | .neginf, .inf => .nan
  | .inf, _ => .inf
  | _, .inf => .inf
  | .neginf, _ => .neginf
  | _, .neginf => .neginf
  | .val a, .val b => .val (MRat.add a b)

/-- IEEE negation on the model. -/
def fneg : F64 → F64
  | .nan => .nan
  | .inf => .neginf
  | .neginf => .inf
  | .val a => .val (MRat.neg a)

/-- IEEE subtraction on the model. -/
def fsub (a b : F64) : F64 := fadd a (fneg b)

/-- IEEE multiplication on the model (exact on rationals). -/
def fmul : F64 → F64 → F64
  | .nan, _ => .nan
  | _, .nan => .nan
  | .inf, .inf => .inf
  | .inf, .neginf => .neginf
  | .neginf, .inf => .neginf
  | .neginf, .neginf => .inf
  | .inf, .val b => if b.num = 0 then .nan else if 0 < b.num then .inf else .neginf
  | .val a, .inf => if a.num = 0 then .nan else if 0 < a.num then .inf else .neginf
  | .neginf, .val b => if b.num = 0 then .nan else if 0 < b.num then .neginf else .inf
  | .val a, .neginf => if a.num = 0 then .nan else if 0 < a.num then .neginf else .inf
  | .val a, .val b => .val (MRat.mul a b)

/-- IEEE division on the model (exact on rationals; zero signs are not
tracked, so `x / 0` uses the positive-zero convention). -/
def fdiv : F64 → F64 → F64
  | .nan, _ => .nan
  | _, .nan => .nan
  | .inf, .inf => .nan
  | .inf, .neginf => .nan
  | .neginf, .inf => .nan
  | .neginf, .neginf => .nan
  | .inf, .val b => if b.num < 0 then .neginf else .inf
  | .neginf, .val b => if b.num < 0 then .inf else .neginf
  | .val _, .inf => .val 0
  | .val _, .neginf => .val 0
  | .val a, .val b =>
      if b.num = 0 then (if a.num = 0 then .nan else if 0 < a.num then .inf else .neginf)
      else .val (MRat.div a b)

/-- IEEE `<` on the model: false whenever either side is NaN. -/
def flt : F64 → F64 → Bool
  | .nan, _ => false
  | _, .nan => false
  | .neginf, .neginf => false
  | .neginf, _ => true
  | _, .neginf => false
  | .inf, .inf => false
  | _, .inf => true
  | .inf, _ => false
  | .val a, .val b => MRat.blt a b

/-- Rust `f64::min`: ignores a NaN argument, otherwise the smaller value. -/
def fmin (a b : F64) : F64 :=
  if isNan a then b else if isNan b then a else if flt b a then b else a

/-- Rust `f64::max`: ignores a NaN argument, otherwise the larger value. -/
def fmax (a b : F64) : F64 :=
  if isNan a then b else if isNan b then a else if flt a b then b else a

/-- Square root on the model: NaN for negative or NaN input, `+∞` for `+∞`,
exact where the result is rational.  A nonnegative rational whose square
root is irrational has no exact representative in this model and is mapped
to NaN; no theorem below depends on that branch (std results are only ever
compared between two runs of the identical computation, or asserted to be
NaN on the count ≤ 1 path which never reaches `fsqrt`). -/
def fsqrt : F64 → F64
  | .nan => .nan
  | .inf => .inf
  | .neginf => .nan
  | .val q =>
      if q.num < 0 then .nan
      else
        let a := q.num.natAbs
        let b := q.den
        if a.sqrt * a.sqrt = a ∧ b.sqrt * b.sqrt = b then
          .val (MRat.normalize (Int.ofNat a.sqrt) b.sqrt)
        else .nan

end F64

open F64

@[simp] theorem isNan_nan : isNan .nan = true := rfl

@[simp] theorem isNan_inf : isNan .inf = false := rfl

@[simp] theorem isNan_neginf : isNan .neginf = false := rfl

@[simp] theorem isNan_val (q : MRat) : isNan (.val q) = false := rfl

/-! ## §statistics.rs — direct reductions -/

/-- The non-NaN elements of a data array, in order (`.filter(|x| !x.is_nan())`). -/
def nonNull (data : List F64) : List F64 := data.filter (fun v => !(isNan v))

/-- `sum_f64`: sum of the non-NaN elements (0.0 when there are none). -/
def sum_f64 (data : List F64) : F64 := (nonNull data).foldl fadd (.val 0)

/-- `mean_f64`: mean of the non-NaN elements, NaN when there are none. -/
def mean_f64 (data : List F64) : F64 :=
  let valid := nonNull data
  if valid.isEmpty then .nan
  else fdiv (valid.foldl fadd (.val 0)) (.val valid.length)

/-- `std_f64`: sample standard deviation of the non-NaN elements;
NaN when empty, 0.0 for a single value. -/
def std_f64 (data : List F64) : F64 :=
  let valid := nonNull data
  if valid.isEmpty then .nan
  else if valid.length = 1 then .val 0
  else
    let mean := fdiv (valid.foldl fadd (.val 0)) (.val valid.length)
    let variance :=
      fdiv ((valid.map (fun x => fmul (fsub x mean) (fsub x mean))).foldl fadd (.val 0))
        (.val ((valid.length - 1 : ℕ)))
    fsqrt variance

/-- `min_f64`: fold of `f64::min` over the non-NaN elements starting from `+∞`. -/
def min_f64 (data : List F64) : F64 := (nonNull data).foldl fmin .inf

/-- `max_f64`: fold of `f64::max` over the non-NaN elements starting from `-∞`. -/
def max_f64 (data : List F64) : F64 := (nonNull data).foldl fmax .neginf

/-- `count_non_null_f64`. -/
def count_non_null_f64 (data : List F64) : ℕ := (nonNull data).length

/-! ## §sorting.rs — comparators and index sorts -/

/-- The null-aware `f64` column comparison shared by all sort entry points
(the `match (a_is_nan, b_is_nan)` block of the source). -/
def cmpF64Nulls (nullsLast : Bool) (a b : F64) : Ordering :=
  match isNan a, isNan b with
  | true, true => .eq
  | true, false => if nullsLast then .gt else .lt
  | false, true => if nullsLast then .lt else .gt
  | false, false =>
      if flt a b then .lt else if flt b a then .gt else .eq

/-- The null-aware `i32` column comparison; `i32::MIN` is the null sentinel. -/
def i32min : ℤ := -(2 ^ 31)

/-- The `i32` analogue of `cmpF64Nulls` (`val_a.cmp(&val_b)` on non-nulls). -/
def cmpI32Nulls (nullsLast : Bool) (a b : ℤ) : Ordering :=
  if a = i32min then
    if b = i32min then .eq
    else if nullsLast then .gt else .lt
  else
    if b = i32min then
      if nullsLast then .lt else .gt
    else compare a b

/-- `if ascending { comparison } else { comparison.reverse() }`. -/
def applyAsc (ascending : Bool) (c : Ordering) : Ordering :=
  if ascending then c else c.swap

/-- The full single-column `f64` comparator of `sort_single_column_f64`,
on values. -/
def sortCmpValF64 (ascending nullsLast : Bool) (a b : F64) : Ordering :=
  applyAsc ascending (cmpF64Nulls nullsLast a b)

/-- The full single-column `i32` comparator of `sort_single_column_i32`,
on values. -/
def sortCmpValI32 (ascending nullsLast : Bool) (a b : ℤ) : Ordering :=
  applyAsc ascending (cmpI32Nulls nullsLast a b)

/-- Rust's stable `slice::sort_by cmp` on a list: insertion sort with the
relation `cmp a b ≠ .gt` (insert before the first strictly greater element),
which is the unique stable order for a total-preorder comparator. -/
def stableSortBy (cmp : α → α → Ordering) (l : List α) : List α :=
  List.insertionSort (fun a b => cmp a b ≠ Ordering.gt) l

/-- `sort_single_column_f64 (data, ascending, nulls_last)`: indices `0..n`
sorted stably by the null-aware comparator on the addressed values. -/
def sort_single_column_f64 (data : List F64) (ascending nullsLast : Bool) : List ℕ :=
  stableSortBy
    (fun a b => sortCmpValF64 ascending nullsLast (data.getD a .nan) (data.getD b .nan))
    (List.range data.length)

/-- `sort_single_column_i32`. -/
def sort_single_column_i32 (data : List ℤ) (ascending nullsLast : Bool) : List ℕ :=
  stableSortBy
    (fun a b => sortCmpValI32 ascending nullsLast (data.getD a i32min) (data.getD b i32min))
    (List.range data.length)

/-- The two-column comparator of `sort_two_columns_f64`: column 1 decides,
column 2 breaks comparator ties; flags are `u8`s tested against `1`. -/
def sortCmp2F64 (col1 col2 : List F64) (asc1 asc2 nullsLast : ℕ) (a b : ℕ) : Ordering :=
  let r1 := applyAsc (asc1 = 1)
    (cmpF64Nulls (nullsLast = 1) (col1.getD a .nan) (col1.getD b .nan))
  if r1 ≠ Ordering.eq then r1
  else applyAsc (asc2 = 1)
    (cmpF64Nulls (nullsLast = 1) (col2.getD a .nan) (col2.getD b .nan))

/-- `sort_two_columns_f64`: empty on length mismatch, else indices `0..n`
sorted stably by the two-column comparator. -/
def sort_two_columns_f64 (col1 col2 : List F64) (asc1 asc2 nullsLast : ℕ) : List ℕ :=
  if col1.length ≠ col2.length then []
  else stableSortBy (sortCmp2F64 col1 col2 asc1 asc2 nullsLast) (List.range col1.length)

/-! ## §core.rs — registry state -/

/-- `u32::MAX`, the sentinel failure handle. -/
def U32MAX : ℕ := 2 ^ 32 - 1

/-- `2^32`, the handle counter modulus (`wrapping_add`). -/
def U32CARD : ℕ := 2 ^ 32

/-- First-match lookup in an association list (`HashMap::get`). -/
def afind {α : Type} : List (ℕ × α) → ℕ → Option α
  | [], _ => none
  | (k, v) :: rest, key => if k = key then some v else afind rest key

/-- Remove all entries for a key (`HashMap::remove`; the insert below keeps
keys duplicate-free, matching hash-map semantics). -/
def aerase {α : Type} (m : List (ℕ × α)) (k : ℕ) : List (ℕ × α) :=
  m.filter (fun p => p.1 ≠ k)

/-- `HashMap::insert`: bind `k` to `v`, replacing any previous binding. -/
def ainsert {α : Type} (m : List (ℕ × α)) (k : ℕ) (v : α) : List (ℕ × α) :=
  (k, v) :: aerase m k

/-- `EngineState`: the wrapping `next_series_id` counter and the two
element-type tables.  A buffer is modelled by its value list. -/
structure EngineState where
  next_series_id : ℕ
  series_store : List (ℕ × List F64)
  series_store_i32 : List (ℕ × List ℤ)
deriving Repr, DecidableEq

/-- The initial (default) engine state. -/
def initState : EngineState := ⟨0, [], []⟩

/-- Shared registration step: issue the current id, wrap the counter, and
insert the buffer into the f64 table (the source repeats this block in every
operator that produces a series). -/
def registerF64 (vals : List F64) (st : EngineState) : ℕ × EngineState :=
  (st.next_series_id,
   { st with
     next_series_id := (st.next_series_id + 1) % U32CARD,
     series_store := ainsert st.series_store st.next_series_id vals })

/-- `engine_create_series_f64`. -/
def engine_create_series_f64 (data : List F64) (st : EngineState) : ℕ × EngineState :=
  registerF64 data st

/-- `engine_create_series_i32`. -/
def engine_create_series_i32 (data : List ℤ) (st : EngineState) : ℕ × EngineState :=
  (st.next_series_id,
   { st with
     next_series_id := (st.next_series_id + 1) % U32CARD,
     series_store_i32 := ainsert st.series_store_i32 st.next_series_id data })

/-- `engine_free_series`: drop the f64 entry if present (no-op otherwise). -/
def engine_free_series (id : ℕ) (st : EngineState) : EngineState :=
  { st with series_store := aerase st.series_store id }

/-- `engine_flush`: clear both tables and reset the counter to zero. -/
def engine_flush (_st : EngineState) : EngineState := initState

/-- `engine_memory_usage`: `Σ len·8` over f64 entries plus `Σ len·4` over
i32 entries. -/
def engine_memory_usage (st : EngineState) : ℕ :=
  (st.series_store.map (fun p => p.2.length * 8)).sum
    + (st.series_store_i32.map (fun p => p.2.length * 4)).sum

/-- `engine_series_count`: total live entries across both tables. -/
def engine_series_count (st : EngineState) : ℕ :=
  st.series_store.length + st.series_store_i32.length

/-! ## §series.rs — accessors and registry-backed reductions -/

/-- `engine_series_len_f64`: 0 for an absent handle. -/
def engine_series_len_f64 (id : ℕ) (st : EngineState) : ℕ :=
  match afind st.series_store id with
  | some d => d.length
  | none => 0

/-- `engine_series_to_vec_f64`: a copy of the buffer, empty if absent (the
source's null-pointer/zero-length early return also yields the empty
vector, which coincides with the buffer contents there). -/
def engine_series_to_vec_f64 (id : ℕ) (st : EngineState) : List F64 :=
  match afind st.series_store id with
  | some d => d
  | none => []

/-- `engine_series_sum_f64`: 0.0 if absent or empty, else the NaN-skipping
running sum. -/
def engine_series_sum_f64 (id : ℕ) (st : EngineState) : F64 :=
  match afind st.series_store id with
  | none => .val 0
  | some d =>
      if d.length = 0 then .val 0
      else d.foldl (fun s v => if isNan v then s else fadd s v) (.val 0)

/-- `engine_series_mean_f64`: NaN if absent, empty, or all-null. -/
def engine_series_mean_f64 (id : ℕ) (st : EngineState) : F64 :=
  match afind st.series_store id with
  | none => .nan
  | some d =>
      if d.length = 0 then .nan
      else
        let sum := d.foldl (fun s v => if isNan v then s else fadd s v) (.val 0)
        let cnt := (d.filter (fun v => !(isNan v))).length
        if cnt = 0 then .nan else fdiv sum (.val cnt)

/-- `engine_series_std_f64`: NaN if absent or fewer than two non-null
values; otherwise the two-pass sample standard deviation. -/
def engine_series_std_f64 (id : ℕ) (st : EngineState) : F64 :=
  match afind st.series_store id with
  | none => .nan
  | some d =>
      let sum := d.foldl (fun s v => if isNan v then s else fadd s v) (.val 0)
      let cnt := (d.filter (fun v => !(isNan v))).length
      if cnt ≤ 1 then .nan
      else
        let mean := fdiv sum (.val cnt)
        let sumsq := d.foldl
          (fun s v => if isNan v then s else fadd s (fmul (fsub v mean) (fsub v mean)))
          (.val 0)
        fsqrt (fdiv sumsq (.val ((cnt - 1 : ℕ))))

/-- The `(m, seen)` running-minimum loop of `engine_series_min_f64`. -/
def minSeenFold (d : List F64) (acc : F64 × Bool) : F64 × Bool :=
  d.foldl (fun p v => if isNan v then p else (if flt v p.1 then v else p.1, true)) acc

/-- `engine_series_min_f64`: NaN if absent, empty or all-null; otherwise the
running minimum of the non-null elements. -/
def engine_series_min_f64 (id : ℕ) (st : EngineState) : F64 :=
  match afind st.series_store id with
  | none => .nan
  | some d =>
      if d.length = 0 then .nan
      else
        let r := minSeenFold d (.inf, false)
        if r.2 then r.1 else .nan

/-- The `(m, seen)` running-maximum loop of `engine_series_max_f64`. -/
def maxSeenFold (d : List F64) (acc : F64 × Bool) : F64 × Bool :=
  d.foldl (fun p v => if isNan v then p else (if flt p.1 v then v else p.1, true)) acc

/-- `engine_series_max_f64`. -/
def engine_series_max_f64 (id : ℕ) (st : EngineState) : F64 :=
  match afind st.series_store id with
  | none => .nan
  | some d =>
      if d.length = 0 then .nan
      else
        let r := maxSeenFold d (.neginf, false)
        if r.2 then r.1 else .nan

/-- `engine_series_count_f64`: 0 if absent, else the non-null count. -/
def engine_series_count_f64 (id : ℕ) (st : EngineState) : ℕ :=
  match afind st.series_store id with
  | none => 0
  | some d => (d.filter (fun v => !(isNan v))).length

/-! ## §filtering.rs -/

/-- The mask selection loop: keep the elements whose mask byte is nonzero,
in order (the source indexes `0..src_len` with `mask.len() == src_len`). -/
def maskFilter (d : List F64) (mask : List ℕ) : List F64 :=
  (d.zip mask).filterMap (fun p => if p.2 ≠ 0 then some p.1 else none)

/-- `engine_filter_f64`: `u32::MAX` when the handle is absent, the source is
empty, or the mask length mismatches; otherwise register the selected
elements as a new series. -/
def engine_filter_f64 (id : ℕ) (mask : List ℕ) (st : EngineState) : ℕ × EngineState :=
  match afind st.series_store id with
  | none => (U32MAX, st)
  | some d =>
      if d.length = 0 ∨ mask.length ≠ d.length then (U32MAX, st)
      else registerF64 (maskFilter d mask) st

/-- The failure condition of `engine_filter_f64`, as the source tests it. -/
def filterFails (id : ℕ) (mask : List ℕ) (st : EngineState) : Bool :=
  match afind st.series_store id with
  | none => true
  | some d => d.length = 0 || mask.length ≠ d.length

/-- `filter_f64` (direct variant): empty on length mismatch, else the
masked selection. -/
def filter_f64 (data : List F64) (mask : List ℕ) : List F64 :=
  if data.length ≠ mask.length then []
  else maskFilter data mask

/-! ## §groupby.rs

Each entry point scans the `(key, value)` rows once (twice for std/var),
accumulating per-key state in a `HashMap<String, _>` via the
`entry(..).and_modify(..).or_insert(..)` idiom, then emits one value per
distinct key in ascending lexicographic key order.  `HashMap` is modelled
as an association list in first-insertion order; every key enumeration of
the source is sorted before use, so that order never matters.

The source stores row indices in `engine_groupby_sum_f64`'s `groups` map
and dereferences them only to read the row's value; the model stores the
row values directly, which reads the same values in the same order. -/

/-- The rows of a grouping call: keys zipped with the series values (the
source iterates `keys.iter().enumerate()` reading `data[i]`, with
`keys.len() == data.len()` already checked). -/
def rowsOf (keys : List String) (data : List F64) : List (String × F64) :=
  keys.zip data

/-- `entry(k)` update on a string-keyed association list: apply `up` to the
current binding (`up none` on first insertion), keeping first-insertion
key order. -/
def supd {V : Type} (m : List (String × V)) (k : String) (up : Option V → V) :
    List (String × V) :=
  match m with
  | [] => [(k, up none)]
  | (k', v) :: rest =>
      if k' = k then (k', up (some v)) :: rest else (k', v) :: supd rest k up

/-- First-match lookup (`HashMap::get`). -/
def sfind {V : Type} : List (String × V) → String → Option V
  | [], _ => none
  | (k', v) :: rest, k => if k' = k then some v else sfind rest k

/-- The keys of a string-keyed map, in insertion order. -/
def keysOf {V : Type} (m : List (String × V)) : List String := m.map Prod.fst

/-- One accumulation pass over the rows: for each row `(k, v)` with
`p k v`, update key `k`'s accumulator by `up k v`. -/
def gbBuild {V : Type} (p : String → F64 → Bool) (up : String → F64 → Option V → V) :
    List (String × F64) → List (String × V) → List (String × V)
  | [], m => m
  | (k, v) :: rest, m =>
      gbBuild p up rest (if p k v then supd m k (up k v) else m)

/-- The values selected for key `k` by an accumulation pass with row
predicate `p`, in row order. -/
def selFor (p : String → F64 → Bool) (rows : List (String × F64)) (k : String) :
    List F64 :=
  rows.filterMap (fun r => if r.1 = k ∧ p r.1 r.2 = true then some r.2 else none)

/-- The non-null row predicate shared by the accumulating passes. -/
def pNan : String → F64 → Bool := fun _ v => !(isNan v)

/-- The row predicate of `buildGroups` (all rows). -/
def pTrue : String → F64 → Bool := fun _ _ => true

/-- Per-key non-null running sums (`*sums.entry(k).or_insert(0.0) += v`). -/
def buildSums (rows : List (String × F64)) : List (String × F64) :=
  gbBuild pNan (fun _ v o => fadd (o.getD (.val 0)) v) rows []

/-- Per-key non-null counts (`*counts.entry(k).or_insert(0) += 1`). -/
def buildCounts (rows : List (String × F64)) : List (String × ℕ) :=
  gbBuild pNan (fun _ _ o => o.getD 0 + 1) rows []

/-- Per-key non-null running minima (`and_modify(min).or_insert(v)`). -/
def buildMins (rows : List (String × F64)) : List (String × F64) :=
  gbBuild pNan
    (fun _ v o => match o with
      | none => v
      | some m => if flt v m then v else m) rows []

/-- Per-key non-null running maxima. -/
def buildMaxs (rows : List (String × F64)) : List (String × F64) :=
  gbBuild pNan
    (fun _ v o => match o with
      | none => v
      | some m => if flt m v then v else m) rows []

/-- Per-key `(sum, count)` accumulators of `engine_groupby_mean_f64`. -/
def buildSumCnt (rows : List (String × F64)) : List (String × (F64 × ℕ)) :=
  gbBuild pNan
    (fun _ v o => let p := o.getD (.val 0, 0); (fadd p.1 v, p.2 + 1)) rows []

/-- Per-key value lists of `engine_groupby_sum_f64`'s `groups` map (all
rows, null or not). -/
def buildGroups (rows : List (String × F64)) : List (String × List F64) :=
  gbBuild pTrue (fun _ v o => o.getD [] ++ [v]) rows []

/-- The per-key means derived from counts and sums (`for (k, c) in
counts.iter() { means.insert(k, if c > 0 { s / c } else { NAN }) }`). -/
def mapMeans (counts : List (String × ℕ)) (sums : List (String × F64)) :
    List (String × F64) :=
  counts.map (fun p =>
    (p.1, if 0 < p.2 then fdiv ((sfind sums p.1).getD (.val 0)) (.val p.2) else .nan))

/-- The second pass of std/var: per-key sums of squared deviations from the
key's mean, skipping rows whose value or mean is NaN. -/
def buildSSD (rows : List (String × F64)) (means : List (String × F64)) :
    List (String × F64) :=
  gbBuild
    (fun k v => !(isNan v) && !(isNan ((sfind means k).getD .nan)))
    (fun k v o =>
      let m := (sfind means k).getD .nan
      fadd (o.getD (.val 0)) (fmul (fsub v m) (fsub v m))) rows []

/-- Strict lexicographic comparison of char lists by code point.  Rust
sorts keys by `String: Ord`, the lexicographic order on UTF-8 bytes, which
coincides with code-point order; a self-contained comparison is used so
that it reduces inside the kernel. -/
def charListLt : List Char → List Char → Bool
  | _, [] => false
  | [], _ :: _ => true
  | a :: as, b :: bs =>
      if a.toNat < b.toNat then true
      else if b.toNat < a.toNat then false
      else charListLt as bs

/-- `a ≤ b` on strings: not `b < a`. -/
def strLe (a b : String) : Bool := !(charListLt b.data a.data)

/-- Ascending lexicographic sort of a key list (`sorted_keys.sort()`). -/
def sortedKeys (l : List String) : List String :=
  List.insertionSort (fun a b => strLe a b = true) l

/-- `engine_groupby_sum_f64`'s result values: for each distinct key in
ascending order, the NaN-skipping sum over that key's rows. -/
def gbSumVals (data : List F64) (keys : List String) : List F64 :=
  let groups := buildGroups (rowsOf keys data)
  (sortedKeys (keysOf groups)).filterMap (fun k =>
    (sfind groups k).map (fun vs =>
      vs.foldl (fun s v => if isNan v then s else fadd s v) (.val 0)))

/-- `engine_groupby_mean_f64`'s result values. -/
def gbMeanVals (data : List F64) (keys : List String) : List F64 :=
  let m := buildSumCnt (rowsOf keys data)
  (sortedKeys (keysOf m)).map (fun k =>
    let p := (sfind m k).getD (.val 0, 0)
    if 0 < p.2 then fdiv p.1 (.val p.2) else .nan)

/-- `engine_groupby_count_f64`'s result values: every distinct key (a
`HashSet` of all keys, zero-count groups included). -/
def gbCountVals (data : List F64) (keys : List String) : List F64 :=
  let counts := buildCounts (rowsOf keys data)
  (sortedKeys keys.dedup).map (fun k => .val ((sfind counts k).getD 0))

/-- `engine_groupby_min_f64`'s result values. -/
def gbMinVals (data : List F64) (keys : List String) : List F64 :=
  let mins := buildMins (rowsOf keys data)
  (sortedKeys (keysOf mins)).map (fun k => (sfind mins k).getD .nan)

/-- `engine_groupby_max_f64`'s result values. -/
def gbMaxVals (data : List F64) (keys : List String) : List F64 :=
  let maxs := buildMaxs (rowsOf keys data)
  (sortedKeys (keysOf maxs)).map (fun k => (sfind maxs k).getD .nan)

/-- `engine_groupby_std_f64`'s result values (sample std, N−1; NaN for
fewer than two non-null observations). -/
def gbStdVals (data : List F64) (keys : List String) : List F64 :=
  let rows := rowsOf keys data
  let sums := buildSums rows
  let counts := buildCounts rows
  let means := mapMeans counts sums
  let ssd := buildSSD rows means
  (sortedKeys (keysOf counts)).map (fun k =>
    let c := (sfind counts k).getD 0
    if 1 < c then fsqrt (fdiv ((sfind ssd k).getD (.val 0)) (.val ((c - 1 : ℕ))))
    else .nan)

/-- `engine_groupby_var_f64`'s result values. -/
def gbVarVals (data : List F64) (keys : List String) : List F64 :=
  let rows := rowsOf keys data
  let sums := buildSums rows
  let counts := buildCounts rows
  let means := mapMeans counts sums
  let ssd := buildSSD rows means
  (sortedKeys (keysOf counts)).map (fun k =>
    let c := (sfind counts k).getD 0
    if 1 < c then fdiv ((sfind ssd k).getD (.val 0)) (.val ((c - 1 : ℕ)))
    else .nan)

/-- The fallback key-merge loop of `engine_groupby_multi_f64`: push the
keys not already present. -/
def mergeKeys (acc l : List String) : List String :=
  l.foldl (fun acc k => if k ∈ acc then acc else acc ++ [k]) acc

/-- Which accumulators `engine_groupby_multi_f64` builds for a mask. -/
def needSum (mask : ℕ) : Bool :=
  mask &&& 1 ≠ 0 || mask &&& 2 ≠ 0 || mask &&& 32 ≠ 0 || mask &&& 64 ≠ 0

/-- `need_count`. -/
def needCount (mask : ℕ) : Bool :=
  mask &&& 4 ≠ 0 || mask &&& 2 ≠ 0 || mask &&& 32 ≠ 0 || mask &&& 64 ≠ 0

/-- The running-minimum update of the registry reductions and groupby
minima (`if v < m { m = v }`). -/
def runMin (a v : F64) : F64 := if flt v a then v else a

/-- The running-maximum update (`if v > m { m = v }`). -/
def runMax (a v : F64) : F64 := if flt a v then v else a

/-- The sums map `engine_groupby_multi_f64` builds (empty unless needed). -/
def multiSums (rows : List (String × F64)) (mask : ℕ) : List (String × F64) :=
  if needSum mask then buildSums rows else []

/-- The counts map of the multi entry point. -/
def multiCounts (rows : List (String × F64)) (mask : ℕ) : List (String × ℕ) :=
  if needCount mask then buildCounts rows else []

/-- The minima map of the multi entry point. -/
def multiMins (rows : List (String × F64)) (mask : ℕ) : List (String × F64) :=
  if mask &&& 8 ≠ 0 then buildMins rows else []

/-- The maxima map of the multi entry point. -/
def multiMaxs (rows : List (String × F64)) (mask : ℕ) : List (String × F64) :=
  if mask &&& 16 ≠ 0 then buildMaxs rows else []

/-- The means map of the multi entry point. -/
def multiMeans (rows : List (String × F64)) (mask : ℕ) : List (String × F64) :=
  if mask &&& 2 ≠ 0 || mask &&& 32 ≠ 0 || mask &&& 64 ≠ 0 then
    mapMeans (multiCounts rows mask) (multiSums rows mask)
  else []

/-- The squared-deviation map of the multi entry point. -/
def multiSSD (rows : List (String × F64)) (mask : ℕ) : List (String × F64) :=
  if mask &&& 32 ≠ 0 || mask &&& 64 ≠ 0 then buildSSD rows (multiMeans rows mask)
  else []

/-- The deterministic output key order of the multi entry point: the keys
of the counts map, falling back to the keys seen by the sums/mins/maxs
maps when counts is empty, sorted ascending. -/
def multiOrdered (rows : List (String × F64)) (mask : ℕ) : List String :=
  sortedKeys
    (if keysOf (multiCounts rows mask) = [] then
      mergeKeys
        (mergeKeys (mergeKeys [] (keysOf (multiSums rows mask)))
          (keysOf (multiMins rows mask)))
        (keysOf (multiMaxs rows mask))
     else keysOf (multiCounts rows mask))

/-- `engine_groupby_multi_f64`'s result value lists, in ascending bit order
of the requested aggregates. -/
def gbMultiVals (data : List F64) (keys : List String) (mask : ℕ) : List (List F64) :=
  let rows := rowsOf keys data
  let sums := multiSums rows mask
  let counts := multiCounts rows mask
  let mins := multiMins rows mask
  let maxs := multiMaxs rows mask
  let ssd := multiSSD rows mask
  let ordered := multiOrdered rows mask
  (if mask &&& 1 ≠ 0 then
    [ordered.map (fun k => (sfind sums k).getD (.val 0))] else []) ++
  (if mask &&& 2 ≠ 0 then
    [ordered.map (fun k =>
      let c := (sfind counts k).getD 0
      if 0 < c then fdiv ((sfind sums k).getD (.val 0)) (.val c) else .nan)]
   else []) ++
  (if mask &&& 4 ≠ 0 then
    [ordered.map (fun k => F64.val ((sfind counts k).getD 0))] else []) ++
  (if mask &&& 8 ≠ 0 then
    [ordered.map (fun k => (sfind mins k).getD .nan)] else []) ++
  (if mask &&& 16 ≠ 0 then
    [ordered.map (fun k => (sfind maxs k).getD .nan)] else []) ++
  (if mask &&& 32 ≠ 0 then
    [ordered.map (fun k =>
      let c := (sfind counts k).getD 0
      if 1 < c then fsqrt (fdiv ((sfind ssd k).getD (.val 0)) (.val ((c - 1 : ℕ))))
      else .nan)]
   else []) ++
  (if mask &&& 64 ≠ 0 then
    [ordered.map (fun k =>
      let c := (sfind counts k).getD 0
      if 1 < c then fdiv ((sfind ssd k).getD (.val 0)) (.val ((c - 1 : ℕ)))
      else .nan)]
   else [])

/-- Shared guard-and-register wrapper of every single-aggregate groupby
entry point: sentinel if the handle is absent or the key vector length
mismatches, else register the aggregate values. -/
def engineGroupbyWith (vals : List F64 → List String → List F64)
    (id : ℕ) (keys : List String) (st : EngineState) : ℕ × EngineState :=
  match afind st.series_store id with
  | none => (U32MAX, st)
  | some d =>
      if keys.length ≠ d.length then (U32MAX, st)
      else registerF64 (vals d keys) st

/-- `engine_groupby_sum_f64`. -/
def engine_groupby_sum_f64 : ℕ → List String → EngineState → ℕ × EngineState :=
  engineGroupbyWith gbSumVals

/-- `engine_groupby_mean_f64`. -/
def engine_groupby_mean_f64 : ℕ → List String → EngineState → ℕ × EngineState :=
  engineGroupbyWith gbMeanVals

/-- `engine_groupby_count_f64`. -/
def engine_groupby_count_f64 : ℕ → List String → EngineState → ℕ × EngineState :=
  engineGroupbyWith gbCountVals

/-- `engine_groupby_min_f64`. -/
def engine_groupby_min_f64 : ℕ → List String → EngineState → ℕ × EngineState :=
  engineGroupbyWith gbMinVals

/-- `engine_groupby_max_f64`. -/
def engine_groupby_max_f64 : ℕ → List String → EngineState → ℕ × EngineState :=
  engineGroupbyWith gbMaxVals

/-- `engine_groupby_std_f64`. -/
def engine_groupby_std_f64 : ℕ → List String → EngineState → ℕ × EngineState :=
  engineGroupbyWith gbStdVals

/-- `engine_groupby_var_f64`. -/
def engine_groupby_var_f64 : ℕ → List String → EngineState → ℕ × EngineState :=
  engineGroupbyWith gbVarVals

/-- `engine_groupby_multi_f64`: empty handle list if the handle is absent
or the key vector length mismatches, else register each requested
aggregate's values in ascending bit order. -/
def engine_groupby_multi_f64 (id : ℕ) (keys : List String) (mask : ℕ)
    (st : EngineState) : List ℕ × EngineState :=
  match afind st.series_store id with
  | none => ([], st)
  | some d =>
      if keys.length ≠ d.length then ([], st)
      else
        (gbMultiVals d keys mask).foldl
          (fun (acc : List ℕ × EngineState) vals =>
            let r := registerF64 vals acc.2
            (acc.1 ++ [r.1], r.2))
          ([], st)

/-! ## Registry map lemmas -/

theorem afind_ainsert_self {α : Type} (m : List (ℕ × α)) (k : ℕ) (v : α) :
    afind (ainsert m k v) k = some v := by
  simp [ainsert, afind]

theorem afind_aerase_self {α : Type} (m : List (ℕ × α)) (k : ℕ) :
    afind (aerase m k) k = none := by
  induction m with
  | nil => rfl
  | cons p rest ih =>
      by_cases h : p.1 = k
      · simpa [aerase, h] using ih
      · simpa [aerase, afind, h] using ih

/-! ## Claims C1, C2, C9, C10 (statistics and sorting) -/

theorem nonNull_eq_nil {data : List F64} (h : ∀ v ∈ data, isNan v = true) :
    nonNull data = [] := by
  simp only [nonNull, List.filter_eq_nil_iff]
  intro v hv
  simp [h v hv]

/-- C1: the claim asserts `min_f64`/`max_f64` return NaN on an all-NaN (or
empty) array.  The code folds from `±∞` with no emptiness check, so they
actually return `+∞` and `-∞` respectively; `mean_f64` does return NaN and
`sum_f64` returns 0.0 as claimed.  This theorem records the code's actual
behaviour on every all-NaN (hence also the empty) input. -/
theorem c1_allNan_direct_reductions (data : List F64)
    (h : ∀ v ∈ data, isNan v = true) :
    min_f64 data = .inf ∧ max_f64 data = .neginf ∧
    mean_f64 data = .nan ∧ sum_f64 data = .val 0 := by
  have hnn := nonNull_eq_nil h
  refine ⟨?_, ?_, ?_, ?_⟩ <;> simp [min_f64, max_f64, mean_f64, sum_f64, hnn]

/-- Witness for C1 at the concrete all-NaN input `[NaN]`. -/
theorem c1_allNan_direct_reductions_witness :
    min_f64 [F64.nan] = .inf ∧ max_f64 [F64.nan] = .neginf ∧
    mean_f64 [F64.nan] = .nan ∧ sum_f64 [F64.nan] = .val 0 :=
  c1_allNan_direct_reductions [F64.nan] (by decide)

/-- C2, counterexample: descending sort with `nulls_last = true` places the
NaN *before* the non-null — the comparator is reversed as a whole, so the
descending flag flips which side the null lands on, contradicting the
claimed independence. -/
theorem c2_counterexample :
    sortCmpValF64 false true F64.nan (F64.val 1) = Ordering.lt ∧
    sort_single_column_f64 [F64.nan, F64.val 1] false true = [0, 1] := by
  constructor
  · rfl
  · rfl

/-- C2, amended: for a null vs non-null pair the comparator places the null
after the non-null exactly when `nulls_last` agrees with `ascending`
(descending reverses the whole comparison, null placement included), for
both the f64 and the i32 column comparators. -/
theorem c2_null_placement (asc nl : Bool) (a b : F64) (x y : ℤ)
    (ha : isNan a = true) (hb : isNan b = false) (hy : y ≠ i32min) :
    sortCmpValF64 asc nl a b = (if asc = nl then .gt else .lt) ∧
    sortCmpValF64 asc nl b a = (if asc = nl then .lt else .gt) ∧
    sortCmpValI32 asc nl i32min y = (if asc = nl then .gt else .lt) ∧
    sortCmpValI32 asc nl y i32min = (if asc = nl then .lt else .gt) := by
  refine ⟨?_, ?_, ?_, ?_⟩ <;>
    cases asc <;> cases nl <;>
      simp [sortCmpValF64, sortCmpValI32, applyAsc, cmpF64Nulls, cmpI32Nulls,
        ha, hb, hy, Ordering.swap]

/-- Witness for C2 (amended) at concrete flag and value choices. -/
theorem c2_null_placement_witness :
    sortCmpValF64 false true F64.nan (F64.val 1) =
      (if (false = true) then Ordering.gt else Ordering.lt) ∧
    sortCmpValF64 false true (F64.val 1) F64.nan =
      (if (false = true) then Ordering.lt else Ordering.gt) ∧
    sortCmpValI32 false true i32min 7 =
      (if (false = true) then Ordering.gt else Ordering.lt) ∧
    sortCmpValI32 false true 7 i32min =
      (if (false = true) then Ordering.lt else Ordering.gt) :=
  c2_null_placement false true F64.nan (F64.val 1) i32min 7
    rfl rfl (by decide)

/-- C9: sorting `[3.0, NaN, 1.0, NaN, 2.0]` ascending with
`nulls_last = true` yields value order `[1.0, 2.0, 3.0, NaN, NaN]` with the
two NaNs (rows 1 and 3) in their original relative order; with
`nulls_last = false` both NaNs come first, again in original order — the
sort is stable. -/
theorem c9_sort_stability_nulls :
    sort_single_column_f64 [F64.val 3, F64.nan, F64.val 1, F64.nan, F64.val 2]
      true true = [2, 4, 0, 1, 3] ∧
    (sort_single_column_f64 [F64.val 3, F64.nan, F64.val 1, F64.nan, F64.val 2]
        true true).map
      (fun i => [F64.val 3, F64.nan, F64.val 1, F64.nan, F64.val 2].getD i .nan)
      = [F64.val 1, F64.val 2, F64.val 3, F64.nan, F64.nan] ∧
    sort_single_column_f64 [F64.val 3, F64.nan, F64.val 1, F64.nan, F64.val 2]
      true false = [1, 3, 2, 4, 0] ∧
    (sort_single_column_f64 [F64.val 3, F64.nan, F64.val 1, F64.nan, F64.val 2]
        true false).map
      (fun i => [F64.val 3, F64.nan, F64.val 1, F64.nan, F64.val 2].getD i .nan)
      = [F64.nan, F64.nan, F64.val 1, F64.val 2, F64.val 3] := by
  refine ⟨rfl, rfl, rfl, rfl⟩

/-- C10: the single-column f64 sort always returns a permutation of
`0..n`, and so does the two-column sort whenever its columns have equal
length. -/
theorem c10_sort_permutation (data col1 col2 : List F64) (asc nl : Bool)
    (a1 a2 nlu : ℕ) (h : col1.length = col2.length) :
    (sort_single_column_f64 data asc nl).Perm (List.range data.length) ∧
    (sort_two_columns_f64 col1 col2 a1 a2 nlu).Perm (List.range col1.length) := by
  constructor
  · exact List.perm_insertionSort _ _
  · have : sort_two_columns_f64 col1 col2 a1 a2 nlu =
        stableSortBy (sortCmp2F64 col1 col2 a1 a2 nlu) (List.range col1.length) := by
      simp [sort_two_columns_f64, h]
    rw [this]
    exact List.perm_insertionSort _ _

/-- Witness for C10 at concrete columns of equal length. -/
theorem c10_sort_permutation_witness :
    (sort_single_column_f64 [F64.val 2, F64.val 1] true true).Perm
      (List.range 2) ∧
    (sort_two_columns_f64 [F64.val 2, F64.val 1] [F64.val 5, F64.nan] 1 0 1).Perm
      (List.range 2) := by
  have h := c10_sort_permutation [F64.val 2, F64.val 1] [F64.val 2, F64.val 1]
    [F64.val 5, F64.nan] true true 1 0 1 (by decide)
  simpa using h

/-! ## Claims C7, C8 (registry lifecycle) -/

/-- C7: materializing a freshly allocated series reproduces the input, and
after freeing its handle every accessor behaves as for an absent handle
(length 0, empty array, sum 0, count 0, NaN for mean/std/min/max). -/
theorem c7_roundtrip_and_free (st : EngineState) (x : List F64) :
    engine_series_to_vec_f64 (engine_create_series_f64 x st).1
      (engine_create_series_f64 x st).2 = x ∧
    (let st2 := engine_free_series (engine_create_series_f64 x st).1
        (engine_create_series_f64 x st).2
     let h := (engine_create_series_f64 x st).1
     engine_series_len_f64 h st2 = 0 ∧
     engine_series_to_vec_f64 h st2 = [] ∧
     engine_series_sum_f64 h st2 = .val 0 ∧
     engine_series_mean_f64 h st2 = .nan ∧
     engine_series_std_f64 h st2 = .nan ∧
     engine_series_min_f64 h st2 = .nan ∧
     engine_series_max_f64 h st2 = .nan ∧
     engine_series_count_f64 h st2 = 0) := by
  constructor
  · simp [engine_create_series_f64, registerF64, engine_series_to_vec_f64,
      afind_ainsert_self]
  · have habs : afind (aerase (ainsert st.series_store st.next_series_id x)
        st.next_series_id) st.next_series_id = none := afind_aerase_self _ _
    simp [engine_create_series_f64, registerF64, engine_free_series,
      engine_series_len_f64, engine_series_to_vec_f64, engine_series_sum_f64,
      engine_series_mean_f64, engine_series_std_f64, engine_series_min_f64,
      engine_series_max_f64, engine_series_count_f64, habs]

/-- C8: after a flush the registry reports zero series and zero bytes, and
the next allocation of either element type receives handle 0. -/
theorem c8_flush_clears_state (st : EngineState) (x : List F64) (y : List ℤ) :
    engine_series_count (engine_flush st) = 0 ∧
    engine_memory_usage (engine_flush st) = 0 ∧
    (engine_create_series_f64 x (engine_flush st)).1 = 0 ∧
    (engine_create_series_i32 y (engine_flush st)).1 = 0 := by
  refine ⟨rfl, rfl, rfl, rfl⟩

/-! ## Claim C5 (filter) -/

/-- C5, counterexample: in a registry state whose id counter sits at the
all-ones value, a perfectly valid filter call returns `u32::MAX` even
though none of the claimed failure conditions holds — the sentinel is
ambiguous with a legitimately issued handle. -/
theorem c5_counterexample :
    (engine_filter_f64 5 [1] ⟨U32MAX, [(5, [F64.val 1])], []⟩).1 = U32MAX ∧
    filterFails 5 [1] ⟨U32MAX, [(5, [F64.val 1])], []⟩ = false := by
  constructor
  · rfl
  · rfl

/-- C5, amended: provided the id counter is not at the all-ones value,
`engine_filter_f64` returns the sentinel exactly when the handle is absent,
the source is empty, or the mask length mismatches; in every other case it
returns a fresh handle holding exactly the elements whose mask byte is
nonzero, in original order. -/
theorem c5_filter (st : EngineState) (id : ℕ) (mask : List ℕ)
    (hnext : st.next_series_id ≠ U32MAX) :
    ((engine_filter_f64 id mask st).1 = U32MAX ↔ filterFails id mask st = true) ∧
    (∀ d, afind st.series_store id = some d → d.length ≠ 0 →
      mask.length = d.length →
      (engine_filter_f64 id mask st).1 = st.next_series_id ∧
      engine_series_to_vec_f64 (engine_filter_f64 id mask st).1
        (engine_filter_f64 id mask st).2 = maskFilter d mask) := by
  constructor
  · match hd : afind st.series_store id with
    | none => simp [engine_filter_f64, filterFails, hd]
    | some d =>
        by_cases hlen : d.length = 0 ∨ mask.length ≠ d.length
        · have h1 : (engine_filter_f64 id mask st).1 = U32MAX := by
            simp only [engine_filter_f64, hd, if_pos hlen]
          have h2 : filterFails id mask st = true := by
            simp only [filterFails, hd]
            rcases hlen with h | h <;> simp [h]
          simp [h1, h2]
        · push_neg at hlen
          have hcond : ¬(d.length = 0 ∨ mask.length ≠ d.length) := by
            push_neg
            exact hlen
          have h1 : (engine_filter_f64 id mask st).1 = st.next_series_id := by
            simp only [engine_filter_f64, hd, if_neg hcond, registerF64]
          have h2 : filterFails id mask st = false := by
            simp only [filterFails, hd]
            simp [hlen.1, hlen.2]
          rw [h1, h2]
          simp [hnext]
  · intro d hd hne hmask
    have hcond : ¬(d.length = 0 ∨ mask.length ≠ d.length) := by
      push_neg
      exact ⟨hne, hmask⟩
    have h1 : engine_filter_f64 id mask st = registerF64 (maskFilter d mask) st := by
      simp only [engine_filter_f64, hd, if_neg hcond]
    rw [h1]
    constructor
    · rfl
    · simp [registerF64, engine_series_to_vec_f64, afind_ainsert_self]

/-- Witness for C5 (amended) at a concrete state, handle and mask. -/
theorem c5_filter_witness :
    (engine_filter_f64 0 [1, 0] ⟨3, [(0, [F64.val 1, F64.val 2])], []⟩).1 = 3 ∧
    engine_series_to_vec_f64
      (engine_filter_f64 0 [1, 0] ⟨3, [(0, [F64.val 1, F64.val 2])], []⟩).1
      (engine_filter_f64 0 [1, 0] ⟨3, [(0, [F64.val 1, F64.val 2])], []⟩).2
      = maskFilter [F64.val 1, F64.val 2] [1, 0] :=
  (c5_filter ⟨3, [(0, [F64.val 1, F64.val 2])], []⟩ 0 [1, 0] (by decide)).2
    [F64.val 1, F64.val 2] rfl (by decide) (by decide)

/-! ## Claim C4 (direct vs registry-backed reductions) -/

/-- A NaN-skipping loop over all elements equals the plain fold over the
non-null elements. -/
theorem foldl_skipNan (f : F64 → F64 → F64) (d : List F64) (a : F64) :
    d.foldl (fun s v => if isNan v then s else f s v) a
      = (nonNull d).foldl f a := by
  induction d generalizing a with
  | nil => rfl
  | cons v d ih =>
      by_cases hv : isNan v = true
      · simp [nonNull, List.filter, hv, ih]
      · simp only [Bool.not_eq_true] at hv
        simp [nonNull, List.filter, hv, ih]

theorem mem_nonNull {d : List F64} {v : F64} (h : v ∈ nonNull d) :
    isNan v = false := by
  have := List.of_mem_filter h
  simpa using this

theorem runMin_not_nan {a v : F64} (ha : isNan a = false) (hv : isNan v = false) :
    isNan (runMin a v) = false := by
  unfold runMin
  split <;> assumption

theorem runMax_not_nan {a v : F64} (ha : isNan a = false) (hv : isNan v = false) :
    isNan (runMax a v) = false := by
  unfold runMax
  split <;> assumption

/-- On non-NaN operands `f64::min` equals the registry's update step, so
the two folds coincide. -/
theorem foldl_fmin_eq_runMin {l : List F64} (hl : ∀ v ∈ l, isNan v = false) :
    ∀ m, isNan m = false → l.foldl fmin m = l.foldl runMin m := by
  induction l with
  | nil => intro m _; rfl
  | cons v l ih =>
      intro m hm
      have hv : isNan v = false := hl v (by simp)
      have hstep : fmin m v = runMin m v := by
        simp [fmin, runMin, hm, hv]
      simp only [List.foldl_cons, hstep]
      exact ih (fun w hw => hl w (by simp [hw])) _ (runMin_not_nan hm hv)

theorem foldl_fmax_eq_runMax {l : List F64} (hl : ∀ v ∈ l, isNan v = false) :
    ∀ m, isNan m = false → l.foldl fmax m = l.foldl runMax m := by
  induction l with
  | nil => intro m _; rfl
  | cons v l ih =>
      intro m hm
      have hv : isNan v = false := hl v (by simp)
      have hstep : fmax m v = runMax m v := by
        simp [fmax, runMax, hm, hv]
      simp only [List.foldl_cons, hstep]
      exact ih (fun w hw => hl w (by simp [hw])) _ (runMax_not_nan hm hv)

/-- Once `seen` is set, the registry minimum loop is the plain running
minimum over the remaining non-null elements. -/
theorem minSeenFold_true (d : List F64) (m : F64) :
    minSeenFold d (m, true) = ((nonNull d).foldl runMin m, true) := by
  induction d generalizing m with
  | nil => rfl
  | cons v d ih =>
      by_cases hv : isNan v = true
      · simp [minSeenFold, nonNull, List.filter, hv] at ih ⊢
        exact ih m
      · simp only [Bool.not_eq_true] at hv
        simp [minSeenFold, nonNull, List.filter, hv, runMin] at ih ⊢
        exact ih _

theorem maxSeenFold_true (d : List F64) (m : F64) :
    maxSeenFold d (m, true) = ((nonNull d).foldl runMax m, true) := by
  induction d generalizing m with
  | nil => rfl
  | cons v d ih =>
      by_cases hv : isNan v = true
      · simp [maxSeenFold, nonNull, List.filter, hv] at ih ⊢
        exact ih m
      · simp only [Bool.not_eq_true] at hv
        simp [maxSeenFold, nonNull, List.filter, hv, runMax] at ih ⊢
        exact ih _

/-- With at least one non-null element, the registry's seen-flag minimum
equals the direct `min_f64` fold. -/
theorem minSeen_eq_min_f64 {x : List F64} (hx : nonNull x ≠ []) :
    (if (minSeenFold x (.inf, false)).2 then (minSeenFold x (.inf, false)).1
     else .nan) = min_f64 x := by
  induction x with
  | nil => exact absurd rfl hx
  | cons v x ih =>
      by_cases hv : isNan v = true
      · have hnn : nonNull (v :: x) = nonNull x := by
          simp [nonNull, List.filter, hv]
        have hx' : nonNull x ≠ [] := by
          rw [hnn] at hx
          exact hx
        have hfold : minSeenFold (v :: x) (.inf, false)
            = minSeenFold x (.inf, false) := by
          simp [minSeenFold, hv]
        rw [hfold, min_f64, hnn]
        exact ih hx'
      · simp only [Bool.not_eq_true] at hv
        have hnn : nonNull (v :: x) = v :: nonNull x := by
          simp [nonNull, List.filter, hv]
        have hfold : minSeenFold (v :: x) (.inf, false)
            = minSeenFold x (runMin .inf v, true) := by
          simp [minSeenFold, hv, runMin]
        rw [hfold, minSeenFold_true, min_f64, hnn]
        have hmembers : ∀ w ∈ nonNull x, isNan w = false :=
          fun w hw => mem_nonNull hw
        have hmv : isNan (runMin .inf v) = false := runMin_not_nan rfl hv
        have hfirst : fmin .inf v = runMin .inf v := by
          simp [fmin, runMin, hv]
        simp only [List.foldl_cons, hfirst]
        exact (foldl_fmin_eq_runMin hmembers _ hmv).symm

theorem maxSeen_eq_max_f64 {x : List F64} (hx : nonNull x ≠ []) :
    (if (maxSeenFold x (.neginf, false)).2 then (maxSeenFold x (.neginf, false)).1
     else .nan) = max_f64 x := by
  induction x with
  | nil => exact absurd rfl hx
  | cons v x ih =>
      by_cases hv : isNan v = true
      · have hnn : nonNull (v :: x) = nonNull x := by
          simp [nonNull, List.filter, hv]
        have hx' : nonNull x ≠ [] := by
          rw [hnn] at hx
          exact hx
        have hfold : maxSeenFold (v :: x) (.neginf, false)
            = maxSeenFold x (.neginf, false) := by
          simp [maxSeenFold, hv]
        rw [hfold, max_f64, hnn]
        exact ih hx'
      · simp only [Bool.not_eq_true] at hv
        have hnn : nonNull (v :: x) = v :: nonNull x := by
          simp [nonNull, List.filter, hv]
        have hfold : maxSeenFold (v :: x) (.neginf, false)
            = maxSeenFold x (runMax .neginf v, true) := by
          simp [maxSeenFold, hv, runMax]
        rw [hfold, maxSeenFold_true, max_f64, hnn]
        have hmembers : ∀ w ∈ nonNull x, isNan w = false :=
          fun w hw => mem_nonNull hw
        have hmv : isNan (runMax .neginf v) = false := runMax_not_nan rfl hv
        have hfirst : fmax .neginf v = runMax .neginf v := by
          simp [fmax, runMax, hv]
        simp only [List.foldl_cons, hfirst]
        exact (foldl_fmax_eq_runMax hmembers _ hmv).symm

/-- C4, counterexample: on the single-element sequence `[1.0]` the direct
`std_f64` returns 0.0 while the registry-backed std of a fresh series
holding the same data returns NaN — they are not numerically identical,
contradicting the claim's "in particular" clause. -/
theorem c4_counterexample :
    std_f64 [F64.val 1] = F64.val 0 ∧
    engine_series_std_f64 (engine_create_series_f64 [F64.val 1] initState).1
      (engine_create_series_f64 [F64.val 1] initState).2 = F64.nan ∧
    F64.val 0 ≠ F64.nan := by
  refine ⟨rfl, rfl, by decide⟩

/-- C4, amended: for a fresh series holding `x`, the registry-backed sum,
mean and count always equal the direct reductions; min and max agree
whenever `x` has at least one non-null element; std agrees whenever the
non-null count differs from exactly 1. -/
theorem c4_direct_vs_registry (st : EngineState) (x : List F64) :
    engine_series_sum_f64 (engine_create_series_f64 x st).1
      (engine_create_series_f64 x st).2 = sum_f64 x ∧
    engine_series_mean_f64 (engine_create_series_f64 x st).1
      (engine_create_series_f64 x st).2 = mean_f64 x ∧
    engine_series_count_f64 (engine_create_series_f64 x st).1
      (engine_create_series_f64 x st).2 = count_non_null_f64 x ∧
    (nonNull x ≠ [] →
      engine_series_min_f64 (engine_create_series_f64 x st).1
        (engine_create_series_f64 x st).2 = min_f64 x ∧
      engine_series_max_f64 (engine_create_series_f64 x st).1
        (engine_create_series_f64 x st).2 = max_f64 x) ∧
    (count_non_null_f64 x ≠ 1 →
      engine_series_std_f64 (engine_create_series_f64 x st).1
        (engine_create_series_f64 x st).2 = std_f64 x) := by
  have hfind : afind (engine_create_series_f64 x st).2.series_store
      (engine_create_series_f64 x st).1 = some x := by
    simp [engine_create_series_f64, registerF64, afind_ainsert_self]
  refine ⟨?_, ?_, ?_, ?_, ?_⟩
  · -- sum
    simp only [engine_series_sum_f64, hfind, sum_f64, foldl_skipNan]
    by_cases hx : x.length = 0
    · have : x = [] := List.length_eq_zero.mp hx
      subst this
      simp [nonNull]
    · simp [hx]
  · -- mean
    simp only [engine_series_mean_f64, hfind, foldl_skipNan]
    by_cases hx : x.length = 0
    · have hxe : x = [] := List.length_eq_zero.mp hx
      subst hxe
      simp [mean_f64, nonNull]
    · simp only [if_neg hx]
      by_cases hc : (x.filter (fun v => !(isNan v))).length = 0
      · have hnil : nonNull x = [] := List.length_eq_zero.mp hc
        simp [mean_f64, hnil, hc]
      · have hemp : ¬(nonNull x).isEmpty = true := by
          rw [List.isEmpty_iff]
          intro hcon
          exact hc (by simpa [nonNull] using congrArg List.length hcon)
        have hnall : ¬∀ a ∈ x, isNan a = true := by
          intro hall
          exact hc (by simpa [nonNull] using congrArg List.length (nonNull_eq_nil hall))
        simp [mean_f64, hc, hemp, hnall, nonNull]
  · -- count
    simp [engine_series_count_f64, hfind, count_non_null_f64, nonNull]
  · -- min / max
    intro hx
    have hlen : x.length ≠ 0 := by
      intro hcon
      have : x = [] := List.length_eq_zero.mp hcon
      subst this
      exact hx rfl
    constructor
    · simp only [engine_series_min_f64, hfind, if_neg hlen]
      exact minSeen_eq_min_f64 hx
    · simp only [engine_series_max_f64, hfind, if_neg hlen]
      exact maxSeen_eq_max_f64 hx
  · -- std
    intro hcnt
    simp only [engine_series_std_f64, hfind, foldl_skipNan]
    by_cases hc0 : (x.filter (fun v => !(isNan v))).length = 0
    · have hnil : nonNull x = [] := List.length_eq_zero.mp hc0
      have hle : (x.filter (fun v => !(isNan v))).length ≤ 1 := by omega
      simp [std_f64, hnil, hle]
    · have hc2 : 1 < (x.filter (fun v => !(isNan v))).length := by
        have hcnt' : (x.filter (fun v => !(isNan v))).length ≠ 1 := hcnt
        omega
      have hcle : ¬((x.filter (fun v => !(isNan v))).length ≤ 1) := by omega
      have hemp : ¬(List.filter (fun v => !(isNan v)) x).isEmpty = true := by
        rw [List.isEmpty_iff]
        intro hcon
        exact hc0 (by simpa using congrArg List.length hcon)
      have hne1 : (List.filter (fun v => !(isNan v)) x).length ≠ 1 := hcnt
      simp only [std_f64, nonNull, List.foldl_map]
      rw [if_neg hcle, if_neg hemp, if_neg hne1]

/-- Witness for C4 (amended) at the concrete input `[1.0, 3.0]`. -/
theorem c4_direct_vs_registry_witness :
    engine_series_sum_f64 (engine_create_series_f64 [F64.val 1, F64.val 3] initState).1
      (engine_create_series_f64 [F64.val 1, F64.val 3] initState).2
      = sum_f64 [F64.val 1, F64.val 3] ∧
    engine_series_min_f64 (engine_create_series_f64 [F64.val 1, F64.val 3] initState).1
      (engine_create_series_f64 [F64.val 1, F64.val 3] initState).2
      = min_f64 [F64.val 1, F64.val 3] ∧
    engine_series_std_f64 (engine_create_series_f64 [F64.val 1, F64.val 3] initState).1
      (engine_create_series_f64 [F64.val 1, F64.val 3] initState).2
      = std_f64 [F64.val 1, F64.val 3] := by
  have h := c4_direct_vs_registry initState [F64.val 1, F64.val 3]
  exact ⟨h.1, (h.2.2.2.1 (by decide)).1, h.2.2.2.2 (by decide)⟩

/-! ## Claim C6 (groupby determinism) -/

/-- C6: grouping `[10,20,30,40]` by `["b","a","b","a"]` yields, in key
order `["a","b"]`, sums `[60,40]`, means `[30,20]`, counts `[2,2]`; and in
general a group with exactly one non-null observation gets NaN from both
the std and the var aggregate. -/
theorem c6_groupby_determinism :
    gbSumVals [F64.val 10, F64.val 20, F64.val 30, F64.val 40]
      ["b", "a", "b", "a"] = [F64.val 60, F64.val 40] ∧
    gbMeanVals [F64.val 10, F64.val 20, F64.val 30, F64.val 40]
      ["b", "a", "b", "a"] = [F64.val 30, F64.val 20] ∧
    gbCountVals [F64.val 10, F64.val 20, F64.val 30, F64.val 40]
      ["b", "a", "b", "a"] = [F64.val 2, F64.val 2] ∧
    (∀ (data : List F64) (keys : List String) (i : ℕ) (k : String),
      (sortedKeys (keysOf (buildCounts (rowsOf keys data)))).get? i = some k →
      (sfind (buildCounts (rowsOf keys data)) k).getD 0 = 1 →
      (gbStdVals data keys).get? i = some F64.nan ∧
      (gbVarVals data keys).get? i = some F64.nan) := by
  refine ⟨by decide, by decide, by decide, ?_⟩
  intro data keys i k hk hc
  constructor
  · simp only [gbStdVals, List.get?_map, hk, Option.map_some', hc]
    norm_num
  · simp only [gbVarVals, List.get?_map, hk, Option.map_some', hc]
    norm_num

/-- Witness for C6's universal std/var clause at a concrete single-element
group. -/
theorem c6_groupby_determinism_witness :
    (gbStdVals [F64.val 10, F64.nan] ["a", "a"]).get? 0 = some F64.nan ∧
    (gbVarVals [F64.val 10, F64.nan] ["a", "a"]).get? 0 = some F64.nan :=
  c6_groupby_determinism.2.2.2 [F64.val 10, F64.nan] ["a", "a"] 0 "a" rfl rfl

/-! ## Claim C3 — generic accumulation-map lemmas -/

theorem sfind_supd {V : Type} (m : List (String × V)) (k k' : String)
    (up : Option V → V) :
    sfind (supd m k up) k'
      = if k = k' then some (up (sfind m k)) else sfind m k' := by
  induction m with
  | nil =>
      by_cases h : k = k' <;> simp [supd, sfind, h]
  | cons p rest ih =>
      obtain ⟨pk, pv⟩ := p
      by_cases hpk : pk = k
      · subst hpk
        by_cases h : pk = k' <;> simp [supd, sfind, h]
      · by_cases h : pk = k'
        · subst h
          have hkk : k ≠ pk := fun hc => hpk hc.symm
          simp [supd, sfind, hpk, hkk, ih]
        · simp [supd, sfind, hpk, h, ih]

theorem keysOf_supd {V : Type} (m : List (String × V)) (k : String)
    (up : Option V → V) :
    keysOf (supd m k up) = if k ∈ keysOf m then keysOf m else keysOf m ++ [k] := by
  induction m with
  | nil => simp [supd, keysOf]
  | cons p rest ih =>
      obtain ⟨pk, pv⟩ := p
      by_cases hpk : pk = k
      · subst hpk
        simp [supd, keysOf]
      · have hk : k ≠ pk := fun hc => hpk hc.symm
        have hcons : supd ((pk, pv) :: rest) k up = (pk, pv) :: supd rest k up := by
          simp [supd, hpk]
        have hmem2 : (k ∈ keysOf ((pk, pv) :: rest)) ↔ k ∈ keysOf rest := by
          simp [keysOf, hk]
        rw [hcons]
        show pk :: keysOf (supd rest k up) = _
        rw [ih]
        by_cases hmem : k ∈ keysOf rest
        · rw [if_pos hmem, if_pos (hmem2.mpr hmem)]
          rfl
        · rw [if_neg hmem, if_neg (fun hc => hmem (hmem2.mp hc))]
          show pk :: (keysOf rest ++ [k]) = keysOf ((pk, pv) :: rest) ++ [k]
          simp [keysOf]

theorem nodup_keysOf_supd {V : Type} (m : List (String × V)) (k : String)
    (up : Option V → V) (h : (keysOf m).Nodup) : (keysOf (supd m k up)).Nodup := by
  rw [keysOf_supd]
  by_cases hmem : k ∈ keysOf m
  · simpa [hmem]
  · simp only [hmem, if_false]
    simpa [List.nodup_append] using ⟨h, hmem⟩

/-- The selection of a cons row. -/
theorem selFor_cons (p : String → F64 → Bool) (k' : String) (v : F64)
    (rows : List (String × F64)) (k : String) :
    selFor p ((k', v) :: rows) k
      = if k' = k ∧ p k' v = true then v :: selFor p rows k else selFor p rows k := by
  by_cases h : k' = k ∧ p k' v = true
  · obtain ⟨h1, h2⟩ := h
    subst h1
    simp [selFor, List.filterMap_cons, h2]
  · simp [selFor, List.filterMap_cons, h]

/-- Characterization of one accumulation pass: the binding of `k` is the
fold of the per-row update over the values selected for `k`. -/
theorem sfind_gbBuild {V : Type} (p : String → F64 → Bool)
    (up : String → F64 → Option V → V) (rows : List (String × F64))
    (m : List (String × V)) (k : String) :
    sfind (gbBuild p up rows m) k
      = (selFor p rows k).foldl (fun o v => some (up k v o)) (sfind m k) := by
  induction rows generalizing m with
  | nil => simp [gbBuild, selFor]
  | cons r rows ih =>
      obtain ⟨k', v⟩ := r
      by_cases hp : p k' v = true
      · by_cases hk : k' = k
        · subst hk
          have hsel : selFor p ((k', v) :: rows) k' = v :: selFor p rows k' := by
            rw [selFor_cons, if_pos ⟨rfl, hp⟩]
          have hstep : gbBuild p up ((k', v) :: rows) m
              = gbBuild p up rows (supd m k' (up k' v)) := by
            simp [gbBuild, hp]
          rw [hsel, hstep, ih, sfind_supd, if_pos rfl]
          rfl
        · have hsel : selFor p ((k', v) :: rows) k = selFor p rows k := by
            rw [selFor_cons, if_neg (fun hc => hk hc.1)]
          have hstep : gbBuild p up ((k', v) :: rows) m
              = gbBuild p up rows (supd m k' (up k' v)) := by
            simp [gbBuild, hp]
          rw [hsel, hstep, ih, sfind_supd, if_neg hk]
      · have hsel : selFor p ((k', v) :: rows) k = selFor p rows k := by
          rw [selFor_cons, if_neg (fun hc => hp hc.2)]
        have hstep : gbBuild p up ((k', v) :: rows) m = gbBuild p up rows m := by
          simp [gbBuild, hp]
        rw [hsel, hstep, ih]

/-- A fold that always wraps in `some` yields `none` only from an empty
selection over a `none` start. -/
theorem foldl_some_eq_none_iff {V : Type} (g : Option V → F64 → V)
    (l : List F64) (init : Option V) :
    l.foldl (fun o v => some (g o v)) init = none ↔ init = none ∧ l = [] := by
  induction l generalizing init with
  | nil => simp
  | cons v l ih =>
      simp only [List.foldl_cons, ih]
      simp

/-- Once the accumulator is `some`, the wrapped fold is the plain fold of
the underlying update. -/
theorem foldl_some_of_some {V : Type} (f : F64 → Option V → V) (g : V → F64 → V)
    (hfg : ∀ m v, f v (some m) = g m v) (l : List F64) :
    ∀ a, l.foldl (fun o v => some (f v o)) (some a) = some (l.foldl g a) := by
  induction l with
  | nil => intro a; rfl
  | cons v l ih =>
      intro a
      simp only [List.foldl_cons, hfg]
      exact ih (g a v)

theorem mem_keysOf_iff_sfind {V : Type} (m : List (String × V)) (k : String) :
    k ∈ keysOf m ↔ sfind m k ≠ none := by
  induction m with
  | nil => simp [keysOf, sfind]
  | cons p rest ih =>
      obtain ⟨pk, pv⟩ := p
      by_cases h : pk = k
      · subst h
        simp [keysOf, sfind]
      · have hk : k ≠ pk := fun hc => h hc.symm
        have h1 : (k ∈ keysOf ((pk, pv) :: rest)) ↔ k ∈ keysOf rest := by
          show (k ∈ pk :: keysOf rest) ↔ _
          simp [hk]
        have h2 : sfind ((pk, pv) :: rest) k = sfind rest k := by
          simp [sfind, h]
        rw [h1, h2, ih]

theorem sfind_gbBuild_eq_none_iff {V : Type} (p : String → F64 → Bool)
    (up : String → F64 → Option V → V) (rows : List (String × F64)) (k : String) :
    sfind (gbBuild p up rows []) k = none ↔ selFor p rows k = [] := by
  rw [sfind_gbBuild]
  have h := foldl_some_eq_none_iff (fun o v => up k v o) (selFor p rows k)
    (sfind ([] : List (String × V)) k)
  simpa [sfind] using h

theorem mem_keysOf_gbBuild {V : Type} (p : String → F64 → Bool)
    (up : String → F64 → Option V → V) (rows : List (String × F64)) (k : String) :
    k ∈ keysOf (gbBuild p up rows []) ↔ selFor p rows k ≠ [] := by
  rw [mem_keysOf_iff_sfind, not_iff_not.symm]
  simpa using sfind_gbBuild_eq_none_iff p up rows k

theorem nodup_keysOf_gbBuild {V : Type} (p : String → F64 → Bool)
    (up : String → F64 → Option V → V) (rows : List (String × F64)) :
    ∀ m : List (String × V), (keysOf m).Nodup → (keysOf (gbBuild p up rows m)).Nodup := by
  induction rows with
  | nil => intro m h; simpa [gbBuild] using h
  | cons r rows ih =>
      intro m h
      obtain ⟨k', v⟩ := r
      by_cases hp : p k' v = true
      · simp only [gbBuild, hp, if_true]
        exact ih _ (nodup_keysOf_supd _ _ _ h)
      · simp only [Bool.not_eq_true] at hp
        simp only [gbBuild, hp, Bool.false_eq_true, if_false]
        exact ih _ h

/-- A non-empty `some`-wrapped fold, spelled through the first element. -/
theorem sfind_gbBuild_cons {V : Type} (p : String → F64 → Bool)
    (up : String → F64 → Option V → V) (rows : List (String × F64)) (k : String)
    (v : F64) (vs : List F64) (hsel : selFor p rows k = v :: vs)
    (g : V → F64 → V) (hfg : ∀ m w, up k w (some m) = g m w) :
    sfind (gbBuild p up rows []) k = some (vs.foldl g (up k v none)) := by
  rw [sfind_gbBuild, hsel]
  have hs : sfind ([] : List (String × V)) k = none := rfl
  rw [hs, List.foldl_cons]
  exact foldl_some_of_some (fun w o => up k w o) g (fun m w => hfg m w) vs _

theorem foldl_count_eq (l : List F64) : ∀ n : ℕ,
    l.foldl (fun c _ => c + 1) n = n + l.length := by
  induction l with
  | nil => intro n; simp
  | cons v l ih => intro n; simp [ih]; omega

theorem foldl_sumcnt_eq (l : List F64) : ∀ (s : F64) (c : ℕ),
    l.foldl (fun p v => (fadd p.1 v, p.2 + 1)) (s, c) = (l.foldl fadd s, c + l.length) := by
  induction l with
  | nil => intro s c; simp
  | cons v l ih => intro s c; simp [ih]; omega

theorem foldl_snoc_eq (l : List F64) : ∀ acc : List F64,
    l.foldl (fun acc v => acc ++ [v]) acc = acc ++ l := by
  induction l with
  | nil => intro acc; simp
  | cons v l ih => intro acc; simp [ih]

/-- The sums map binds `k` to the sum of its non-null values. -/
theorem sfind_buildSums (rows : List (String × F64)) (k : String) :
    sfind (buildSums rows) k
      = if selFor pNan rows k = [] then none
        else some ((selFor pNan rows k).foldl fadd (.val 0)) := by
  match hsel : selFor pNan rows k with
  | [] =>
      rw [if_pos rfl, buildSums, sfind_gbBuild_eq_none_iff]
      exact hsel
  | v :: vs =>
      rw [if_neg (by simp), buildSums,
        sfind_gbBuild_cons pNan _ rows k v vs hsel fadd (fun m w => rfl)]
      rfl

/-- The counts map binds `k` to its non-null count. -/
theorem sfind_buildCounts (rows : List (String × F64)) (k : String) :
    sfind (buildCounts rows) k
      = if selFor pNan rows k = [] then none
        else some (selFor pNan rows k).length := by
  match hsel : selFor pNan rows k with
  | [] =>
      rw [if_pos rfl, buildCounts, sfind_gbBuild_eq_none_iff]
      exact hsel
  | v :: vs =>
      rw [if_neg (by simp), buildCounts,
        sfind_gbBuild_cons pNan _ rows k v vs hsel (fun c _ => c + 1) (fun m w => rfl),
        foldl_count_eq]
      simp [Nat.add_comm]

/-- The `(sum, count)` map of the mean entry point. -/
theorem sfind_buildSumCnt (rows : List (String × F64)) (k : String) :
    sfind (buildSumCnt rows) k
      = if selFor pNan rows k = [] then none
        else some ((selFor pNan rows k).foldl fadd (.val 0),
          (selFor pNan rows k).length) := by
  match hsel : selFor pNan rows k with
  | [] =>
      rw [if_pos rfl, buildSumCnt, sfind_gbBuild_eq_none_iff]
      exact hsel
  | v :: vs =>
      rw [if_neg (by simp), buildSumCnt,
        sfind_gbBuild_cons pNan _ rows k v vs hsel
          (fun p v => (fadd p.1 v, p.2 + 1)) (fun m w => rfl),
        foldl_sumcnt_eq]
      simp [Nat.add_comm]

/-- The groups map of the sum entry point binds `k` to all its values. -/
theorem sfind_buildGroups (rows : List (String × F64)) (k : String) :
    sfind (buildGroups rows) k
      = if selFor pTrue rows k = [] then none
        else some (selFor pTrue rows k) := by
  match hsel : selFor pTrue rows k with
  | [] =>
      rw [if_pos rfl, buildGroups, sfind_gbBuild_eq_none_iff]
      exact hsel
  | v :: vs =>
      rw [if_neg (by simp), buildGroups,
        sfind_gbBuild_cons pTrue _ rows k v vs hsel
          (fun acc v => acc ++ [v]) (fun m w => rfl),
        foldl_snoc_eq]
      rfl

/-! ## The key order: a strict lexicographic order and its sort -/

theorem char_toNat_inj {a b : Char} (h : a.toNat = b.toNat) : a = b :=
  Char.ext (UInt32.ext h)

theorem charListLt_asymm : ∀ l1 l2 : List Char,
    charListLt l1 l2 = true → charListLt l2 l1 = true → False := by
  intro l1
  induction l1 with
  | nil => intro l2 h1 h2; cases l2 <;> simp [charListLt] at h1 h2
  | cons a as ih =>
      intro l2 h1 h2
      cases l2 with
      | nil => simp [charListLt] at h1
      | cons b bs =>
          by_cases hab : a.toNat < b.toNat
          · have hba : ¬b.toNat < a.toNat := by omega
            simp [charListLt, hab, hba] at h2
          · by_cases hba : b.toNat < a.toNat
            · simp [charListLt, hab, hba] at h1
            · simp [charListLt, hab, hba] at h1 h2
              exact ih bs h1 h2

theorem charListLt_eq_of_not_lt : ∀ l1 l2 : List Char,
    charListLt l1 l2 = false → charListLt l2 l1 = false → l1 = l2 := by
  intro l1
  induction l1 with
  | nil => intro l2 h1 _; cases l2 with
      | nil => rfl
      | cons b bs => simp [charListLt] at h1
  | cons a as ih =>
      intro l2 h1 h2
      cases l2 with
      | nil => simp [charListLt] at h2
      | cons b bs =>
          by_cases hab : a.toNat < b.toNat
          · simp [charListLt, hab] at h1
          · by_cases hba : b.toNat < a.toNat
            · simp [charListLt, hba, hab] at h2
            · have hchar : a = b := char_toNat_inj (by omega)
              simp [charListLt, hab, hba] at h1 h2
              rw [hchar, ih bs h1 h2]

theorem charListLt_trans : ∀ l1 l2 l3 : List Char,
    charListLt l1 l2 = true → charListLt l2 l3 = true →
    charListLt l1 l3 = true := by
  intro l1
  induction l1 with
  | nil =>
      intro l2 l3 h1 h2
      cases l2 with
      | nil => simp [charListLt] at h1
      | cons b bs =>
          cases l3 with
          | nil => simp [charListLt] at h2
          | cons c cs => simp [charListLt]
  | cons a as ih =>
      intro l2 l3 h1 h2
      cases l2 with
      | nil => simp [charListLt] at h1
      | cons b bs =>
          cases l3 with
          | nil => simp [charListLt] at h2
          | cons c cs =>
              by_cases hab : a.toNat < b.toNat
              · by_cases hbc : b.toNat < c.toNat
                · simp [charListLt]; omega
                · by_cases hcb : c.toNat < b.toNat
                  · simp [charListLt, hbc, hcb] at h2
                  · have : a.toNat < c.toNat := by omega
                    simp [charListLt, this]
              · by_cases hba : b.toNat < a.toNat
                · simp [charListLt, hab, hba] at h1
                · by_cases hbc : b.toNat < c.toNat
                  · have : a.toNat < c.toNat := by omega
                    simp [charListLt, this]
                  · by_cases hcb : c.toNat < b.toNat
                    · simp [charListLt, hbc, hcb] at h2
                    · have hac : ¬a.toNat < c.toNat := by omega
                      have hca : ¬c.toNat < a.toNat := by omega
                      simp [charListLt, hab, hba] at h1
                      simp [charListLt, hbc, hcb] at h2
                      simp [charListLt, hac, hca]
                      exact ih bs cs h1 h2

/-- The relation `sortedKeys` sorts by. -/
def strLeRel : String → String → Prop := fun a b => strLe a b = true

instance : DecidableRel strLeRel := fun a b => by
  unfold strLeRel
  infer_instance

instance : IsTotal String strLeRel := by
  constructor
  intro a b
  by_cases h : charListLt b.data a.data = true
  · right
    have : charListLt a.data b.data = false := by
      by_cases h2 : charListLt a.data b.data = true
      · exact absurd (charListLt_asymm _ _ h h2) (fun x => x)
      · simpa using h2
    simp [strLeRel, strLe, this]
  · left
    simp only [Bool.not_eq_true] at h
    simp [strLeRel, strLe, h]

instance : IsTrans String strLeRel := by
  constructor
  intro a b c hab hbc
  simp only [strLeRel, strLe, Bool.not_eq_true'] at hab hbc ⊢
  by_cases hca : charListLt c.data a.data = true
  · exfalso
    by_cases h1 : charListLt a.data b.data = true
    · exact absurd (charListLt_trans _ _ _ hca h1) (by simp [hbc])
    · have heq : a.data = b.data :=
        charListLt_eq_of_not_lt _ _ (by simpa using h1) hab
      rw [heq] at hca
      simp [hca] at hbc
  · simpa using hca

instance : IsAntisymm String strLeRel := by
  constructor
  intro a b hab hba
  simp only [strLeRel, strLe, Bool.not_eq_true'] at hab hba
  have hdata : a.data = b.data := charListLt_eq_of_not_lt _ _ hba hab
  cases a
  cases b
  exact congrArg String.mk (by simpa using hdata)

/-- Sorting is permutation-invariant: any two lists with the same elements
sort to the same list. -/
theorem sortedKeys_eq_of_perm {l1 l2 : List String} (h : l1.Perm l2) :
    sortedKeys l1 = sortedKeys l2 := by
  have hp : (sortedKeys l1).Perm (sortedKeys l2) :=
    ((List.perm_insertionSort _ l1).trans h).trans
      (List.perm_insertionSort _ l2).symm
  exact List.eq_of_perm_of_sorted hp
    (List.sorted_insertionSort strLeRel l1)
    (List.sorted_insertionSort strLeRel l2)

theorem mem_mergeKeys (l : List String) : ∀ (acc : List String) (k : String),
    k ∈ mergeKeys acc l ↔ k ∈ acc ∨ k ∈ l := by
  induction l with
  | nil => intro acc k; simp [mergeKeys]
  | cons b l ih =>
      intro acc k
      have hstep : mergeKeys acc (b :: l)
          = mergeKeys (if b ∈ acc then acc else acc ++ [b]) l := rfl
      rw [hstep, ih]
      by_cases hb : b ∈ acc
      · rw [if_pos hb]
        constructor
        · rintro (h | h)
          · exact Or.inl h
          · exact Or.inr (by simp [h])
        · rintro (h | h)
          · exact Or.inl h
          · rcases List.mem_cons.mp h with h | h
            · exact Or.inl (h ▸ hb)
            · exact Or.inr h
      · rw [if_neg hb]
        constructor
        · rintro (h | h)
          · rcases List.mem_append.mp h with h | h
            · exact Or.inl h
            · exact Or.inr (by simp at h; simp [h])
          · exact Or.inr (by simp [h])
        · rintro (h | h)
          · exact Or.inl (by simp [h])
          · rcases List.mem_cons.mp h with h | h
            · exact Or.inl (by simp [h])
            · exact Or.inr h

theorem nodup_mergeKeys (l : List String) : ∀ acc : List String,
    acc.Nodup → (mergeKeys acc l).Nodup := by
  induction l with
  | nil => intro acc h; simpa [mergeKeys] using h
  | cons b l ih =>
      intro acc h
      have hstep : mergeKeys acc (b :: l)
          = mergeKeys (if b ∈ acc then acc else acc ++ [b]) l := rfl
      rw [hstep]
      by_cases hb : b ∈ acc
      · rw [if_pos hb]
        exact ih acc h
      · rw [if_neg hb]
        refine ih _ ?_
        simpa [List.nodup_append] using ⟨h, hb⟩

/-! ## Key-set lemmas for the grouping passes -/

theorem selFor_ne_nil_imp_mem (p : String → F64 → Bool) :
    ∀ (keys : List String) (data : List F64) (k : String),
    selFor p (rowsOf keys data) k ≠ [] → k ∈ keys := by
  intro keys
  induction keys with
  | nil => intro data k h; simp [rowsOf, selFor] at h
  | cons k' ks ih =>
      intro data k h
      cases data with
      | nil => simp [rowsOf, selFor] at h
      | cons v ds =>
          have hrows : rowsOf (k' :: ks) (v :: ds) = (k', v) :: rowsOf ks ds := rfl
          rw [hrows, selFor_cons] at h
          by_cases hc : k' = k ∧ p k' v = true
          · exact List.mem_cons.mpr (Or.inl hc.1.symm)
          · rw [if_neg hc] at h
            exact List.mem_cons.mpr (Or.inr (ih ds k h))

theorem mem_imp_selTrue_ne : ∀ (keys : List String) (data : List F64) (k : String),
    keys.length = data.length → k ∈ keys →
    selFor pTrue (rowsOf keys data) k ≠ [] := by
  intro keys
  induction keys with
  | nil => intro data k _ h; simp at h
  | cons k' ks ih =>
      intro data k hlen hk
      cases data with
      | nil => simp at hlen
      | cons v ds =>
          have hrows : rowsOf (k' :: ks) (v :: ds) = (k', v) :: rowsOf ks ds := rfl
          rw [hrows, selFor_cons]
          by_cases hc : k' = k
          · rw [if_pos ⟨hc, rfl⟩]
            simp
          · rw [if_neg (fun hx => hc hx.1)]
            have hk' : k ∈ ks := by
              rcases List.mem_cons.mp hk with h | h
              · exact absurd h.symm hc
              · exact h
            exact ih ds k (by simpa using hlen) hk'

theorem sortedKeys_keysOf_build_pNan {V : Type} (up : String → F64 → Option V → V)
    (data : List F64) (keys : List String)
    (H : ∀ k ∈ keys, selFor pNan (rowsOf keys data) k ≠ []) :
    sortedKeys (keysOf (gbBuild pNan up (rowsOf keys data) []))
      = sortedKeys keys.dedup := by
  apply sortedKeys_eq_of_perm
  rw [List.perm_ext_iff_of_nodup
    (nodup_keysOf_gbBuild pNan up (rowsOf keys data) [] (by simp [keysOf]))
    (List.nodup_dedup keys)]
  intro a
  rw [mem_keysOf_gbBuild, List.mem_dedup]
  constructor
  · intro h
    exact selFor_ne_nil_imp_mem pNan keys data a h
  · intro h
    exact H a h

theorem sortedKeys_keysOf_build_pTrue {V : Type} (up : String → F64 → Option V → V)
    (data : List F64) (keys : List String) (hlen : keys.length = data.length) :
    sortedKeys (keysOf (gbBuild pTrue up (rowsOf keys data) []))
      = sortedKeys keys.dedup := by
  apply sortedKeys_eq_of_perm
  rw [List.perm_ext_iff_of_nodup
    (nodup_keysOf_gbBuild pTrue up (rowsOf keys data) [] (by simp [keysOf]))
    (List.nodup_dedup keys)]
  intro a
  rw [mem_keysOf_gbBuild, List.mem_dedup]
  constructor
  · intro h
    exact selFor_ne_nil_imp_mem pTrue keys data a h
  · intro h
    exact mem_imp_selTrue_ne keys data a hlen h

theorem needSum_of_bit1 {mask : ℕ} (h : mask &&& 1 ≠ 0) : needSum mask = true := by
  simp only [needSum, Bool.or_eq_true, decide_eq_true_eq, ne_eq]
  tauto

theorem needCount_of_bit2 {mask : ℕ} (h : mask &&& 2 ≠ 0) : needCount mask = true := by
  simp only [needCount, Bool.or_eq_true, decide_eq_true_eq, ne_eq]
  tauto

theorem needCount_of_bit4 {mask : ℕ} (h : mask &&& 4 ≠ 0) : needCount mask = true := by
  simp only [needCount, Bool.or_eq_true, decide_eq_true_eq, ne_eq]
  tauto

theorem needCount_of_bit32 {mask : ℕ} (h : mask &&& 32 ≠ 0) : needCount mask = true := by
  simp only [needCount, Bool.or_eq_true, decide_eq_true_eq, ne_eq]
  tauto

theorem needCount_of_bit64 {mask : ℕ} (h : mask &&& 64 ≠ 0) : needCount mask = true := by
  simp only [needCount, Bool.or_eq_true, decide_eq_true_eq, ne_eq]
  tauto

theorem needSum_of_bit2 {mask : ℕ} (h : mask &&& 2 ≠ 0) : needSum mask = true := by
  simp only [needSum, Bool.or_eq_true, decide_eq_true_eq, ne_eq]
  tauto

theorem needSum_of_bit32 {mask : ℕ} (h : mask &&& 32 ≠ 0) : needSum mask = true := by
  simp only [needSum, Bool.or_eq_true, decide_eq_true_eq, ne_eq]
  tauto

theorem needSum_of_bit64 {mask : ℕ} (h : mask &&& 64 ≠ 0) : needSum mask = true := by
  simp only [needSum, Bool.or_eq_true, decide_eq_true_eq, ne_eq]
  tauto

theorem mem_multiSums_imp {data : List F64} {keys : List String} {mask : ℕ}
    {a : String} (h : a ∈ keysOf (multiSums (rowsOf keys data) mask)) :
    a ∈ keys := by
  unfold multiSums at h
  by_cases hc : needSum mask = true
  · rw [if_pos hc] at h
    exact selFor_ne_nil_imp_mem pNan keys data a
      ((mem_keysOf_gbBuild pNan _ (rowsOf keys data) a).mp h)
  · rw [if_neg hc] at h
    simp [keysOf] at h

theorem mem_multiMins_imp {data : List F64} {keys : List String} {mask : ℕ}
    {a : String} (h : a ∈ keysOf (multiMins (rowsOf keys data) mask)) :
    a ∈ keys := by
  unfold multiMins at h
  by_cases hc : mask &&& 8 ≠ 0
  · rw [if_pos hc] at h
    exact selFor_ne_nil_imp_mem pNan keys data a
      ((mem_keysOf_gbBuild pNan _ (rowsOf keys data) a).mp h)
  · rw [if_neg hc] at h
    simp [keysOf] at h

theorem mem_multiMaxs_imp {data : List F64} {keys : List String} {mask : ℕ}
    {a : String} (h : a ∈ keysOf (multiMaxs (rowsOf keys data) mask)) :
    a ∈ keys := by
  unfold multiMaxs at h
  by_cases hc : mask &&& 16 ≠ 0
  · rw [if_pos hc] at h
    exact selFor_ne_nil_imp_mem pNan keys data a
      ((mem_keysOf_gbBuild pNan _ (rowsOf keys data) a).mp h)
  · rw [if_neg hc] at h
    simp [keysOf] at h

/-- The deterministic output order of the multi entry point equals the
sorted distinct input keys, provided every key has a non-null observation
and the mask requests at least one accumulating aggregate. -/
theorem multiOrdered_eq (data : List F64) (keys : List String) (mask : ℕ)
    (hlen : keys.length = data.length)
    (H : ∀ k ∈ keys, selFor pNan (rowsOf keys data) k ≠ [])
    (hbit : needCount mask = true ∨ mask &&& 1 ≠ 0 ∨ mask &&& 8 ≠ 0 ∨
      mask &&& 16 ≠ 0) :
    multiOrdered (rowsOf keys data) mask = sortedKeys keys.dedup := by
  by_cases hnc : needCount mask = true
  · have hcounts : multiCounts (rowsOf keys data) mask
        = buildCounts (rowsOf keys data) := by
      simp [multiCounts, hnc]
    by_cases hk : keysOf (buildCounts (rowsOf keys data)) = []
    · have hkeys : keys = [] := by
        rcases List.eq_nil_or_concat keys with h | _
        · exact h
        by_contra hne
        obtain ⟨k0, hk0⟩ := List.exists_mem_of_ne_nil keys hne
        have hsel := H k0 hk0
        have hmem : k0 ∈ keysOf (buildCounts (rowsOf keys data)) :=
          (mem_keysOf_gbBuild pNan _ (rowsOf keys data) k0).mpr hsel
        rw [hk] at hmem
        simp at hmem
      subst hkeys
      have hrows : rowsOf ([] : List String) data = [] := rfl
      rw [multiOrdered, hcounts, hrows]
      have h1 : buildCounts ([] : List (String × F64)) = [] := rfl
      have h2 : multiSums ([] : List (String × F64)) mask = [] := by
        unfold multiSums
        split <;> rfl
      have h3 : multiMins ([] : List (String × F64)) mask = [] := by
        unfold multiMins
        split <;> rfl
      have h4 : multiMaxs ([] : List (String × F64)) mask = [] := by
        unfold multiMaxs
        split <;> rfl
      rw [h1, h2, h3, h4]
      rfl
    · rw [multiOrdered, hcounts, if_neg hk]
      have : buildCounts (rowsOf keys data)
          = gbBuild pNan (fun _ _ o => o.getD 0 + 1) (rowsOf keys data) [] := rfl
      rw [this]
      exact sortedKeys_keysOf_build_pNan _ data keys H
  · have hcounts : multiCounts (rowsOf keys data) mask = [] := by
      simp [multiCounts, hnc]
    have hrest : mask &&& 1 ≠ 0 ∨ mask &&& 8 ≠ 0 ∨ mask &&& 16 ≠ 0 := by
      rcases hbit with h | h
      · exact absurd h hnc
      · exact h
    rw [multiOrdered, hcounts]
    have hnil : keysOf ([] : List (String × ℕ)) = [] := rfl
    rw [hnil, if_pos rfl]
    apply sortedKeys_eq_of_perm
    have hnodup : (mergeKeys
        (mergeKeys (mergeKeys [] (keysOf (multiSums (rowsOf keys data) mask)))
          (keysOf (multiMins (rowsOf keys data) mask)))
        (keysOf (multiMaxs (rowsOf keys data) mask))).Nodup := by
      apply nodup_mergeKeys
      apply nodup_mergeKeys
      apply nodup_mergeKeys
      simp
    rw [List.perm_ext_iff_of_nodup hnodup (List.nodup_dedup keys)]
    intro a
    rw [mem_mergeKeys, mem_mergeKeys, mem_mergeKeys, List.mem_dedup]
    simp only [List.not_mem_nil, false_or]
    constructor
    · rintro ((hS | hM) | hX)
      · exact mem_multiSums_imp hS
      · exact mem_multiMins_imp hM
      · exact mem_multiMaxs_imp hX
    · intro ha
      have hsel := H a ha
      rcases hrest with hb | hb | hb
      · refine Or.inl (Or.inl ?_)
        unfold multiSums
        rw [if_pos (needSum_of_bit1 hb)]
        exact (mem_keysOf_gbBuild pNan _ (rowsOf keys data) a).mpr hsel
      · refine Or.inl (Or.inr ?_)
        unfold multiMins
        rw [if_pos hb]
        exact (mem_keysOf_gbBuild pNan _ (rowsOf keys data) a).mpr hsel
      · refine Or.inr ?_
        unfold multiMaxs
        rw [if_pos hb]
        exact (mem_keysOf_gbBuild pNan _ (rowsOf keys data) a).mpr hsel

/-! ## Canonical forms of the groupby entry points -/

theorem mem_sortedKeys {l : List String} {a : String} :
    a ∈ sortedKeys l ↔ a ∈ l :=
  (List.perm_insertionSort _ l).mem_iff

theorem filterMap_eq_map_of_some {α β : Type} {l : List α} {f : α → Option β}
    {g : α → β} (h : ∀ a ∈ l, f a = some (g a)) : l.filterMap f = l.map g := by
  induction l with
  | nil => rfl
  | cons a l ih =>
      rw [List.filterMap_cons, h a (by simp), List.map_cons,
        ih (fun b hb => h b (by simp [hb]))]

theorem nonNull_selTrue : ∀ (rows : List (String × F64)) (k : String),
    nonNull (selFor pTrue rows k) = selFor pNan rows k := by
  intro rows
  induction rows with
  | nil => intro k; rfl
  | cons r rows ih =>
      intro k
      obtain ⟨k', v⟩ := r
      by_cases hk : k' = k
      · subst hk
        have h1 : selFor pTrue ((k', v) :: rows) k' = v :: selFor pTrue rows k' := by
          rw [selFor_cons, if_pos ⟨rfl, rfl⟩]
        rw [h1]
        by_cases hv : isNan v = true
        · have h2 : selFor pNan ((k', v) :: rows) k' = selFor pNan rows k' := by
            rw [selFor_cons, if_neg (fun hx => by simp [pNan, hv] at hx)]
          rw [h2, ← ih]
          simp [nonNull, List.filter, hv]
        · simp only [Bool.not_eq_true] at hv
          have h2 : selFor pNan ((k', v) :: rows) k' = v :: selFor pNan rows k' := by
            rw [selFor_cons, if_pos ⟨rfl, by simp [pNan, hv]⟩]
          rw [h2, ← ih]
          simp [nonNull, List.filter, hv]
      · have h1 : selFor pTrue ((k', v) :: rows) k = selFor pTrue rows k := by
          rw [selFor_cons, if_neg (fun hx => hk hx.1)]
        have h2 : selFor pNan ((k', v) :: rows) k = selFor pNan rows k := by
          rw [selFor_cons, if_neg (fun hx => hk hx.1)]
        rw [h1, h2, ih]

theorem sortedKeys_keysOf_buildGroups (data : List F64) (keys : List String)
    (hlen : keys.length = data.length) :
    sortedKeys (keysOf (buildGroups (rowsOf keys data))) = sortedKeys keys.dedup := by
  have hb : buildGroups (rowsOf keys data)
      = gbBuild pTrue (fun _ v o => o.getD [] ++ [v]) (rowsOf keys data) [] := rfl
  rw [hb]
  exact sortedKeys_keysOf_build_pTrue _ data keys hlen

theorem sortedKeys_keysOf_buildCounts (data : List F64) (keys : List String)
    (H : ∀ k ∈ keys, selFor pNan (rowsOf keys data) k ≠ []) :
    sortedKeys (keysOf (buildCounts (rowsOf keys data))) = sortedKeys keys.dedup := by
  have hb : buildCounts (rowsOf keys data)
      = gbBuild pNan (fun _ _ o => o.getD 0 + 1) (rowsOf keys data) [] := rfl
  rw [hb]
  exact sortedKeys_keysOf_build_pNan _ data keys H

theorem sortedKeys_keysOf_buildSumCnt (data : List F64) (keys : List String)
    (H : ∀ k ∈ keys, selFor pNan (rowsOf keys data) k ≠ []) :
    sortedKeys (keysOf (buildSumCnt (rowsOf keys data))) = sortedKeys keys.dedup := by
  have hb : buildSumCnt (rowsOf keys data)
      = gbBuild pNan
        (fun _ v o => let p := o.getD (.val 0, 0); (fadd p.1 v, p.2 + 1))
        (rowsOf keys data) [] := rfl
  rw [hb]
  exact sortedKeys_keysOf_build_pNan _ data keys H

theorem sortedKeys_keysOf_buildMins (data : List F64) (keys : List String)
    (H : ∀ k ∈ keys, selFor pNan (rowsOf keys data) k ≠ []) :
    sortedKeys (keysOf (buildMins (rowsOf keys data))) = sortedKeys keys.dedup := by
  have hb : buildMins (rowsOf keys data)
      = gbBuild pNan
        (fun _ v o => match o with
          | none => v
          | some m => if flt v m then v else m) (rowsOf keys data) [] := rfl
  rw [hb]
  exact sortedKeys_keysOf_build_pNan _ data keys H

theorem sortedKeys_keysOf_buildMaxs (data : List F64) (keys : List String)
    (H : ∀ k ∈ keys, selFor pNan (rowsOf keys data) k ≠ []) :
    sortedKeys (keysOf (buildMaxs (rowsOf keys data))) = sortedKeys keys.dedup := by
  have hb : buildMaxs (rowsOf keys data)
      = gbBuild pNan
        (fun _ v o => match o with
          | none => v
          | some m => if flt m v then v else m) (rowsOf keys data) [] := rfl
  rw [hb]
  exact sortedKeys_keysOf_build_pNan _ data keys H

/-- The single-aggregate sum values, canonicalized to the sums map. -/
theorem gbSumVals_eq (data : List F64) (keys : List String)
    (hlen : keys.length = data.length) :
    gbSumVals data keys
      = (sortedKeys keys.dedup).map
        (fun k => (sfind (buildSums (rowsOf keys data)) k).getD (.val 0)) := by
  simp only [gbSumVals]
  rw [sortedKeys_keysOf_buildGroups data keys hlen]
  rw [filterMap_eq_map_of_some (g := fun k =>
    (selFor pTrue (rowsOf keys data) k).foldl
      (fun s v => if isNan v then s else fadd s v) (.val 0))
    (by
      intro a ha
      have hmem : a ∈ keys := List.mem_dedup.mp (mem_sortedKeys.mp ha)
      have hne := mem_imp_selTrue_ne keys data a hlen hmem
      rw [sfind_buildGroups, if_neg hne]
      rfl)]
  have hfe : (fun k => (selFor pTrue (rowsOf keys data) k).foldl
        (fun s v => if isNan v then s else fadd s v) (.val 0))
      = fun k => (sfind (buildSums (rowsOf keys data)) k).getD (.val 0) := by
    funext a
    rw [foldl_skipNan fadd (selFor pTrue (rowsOf keys data) a) (.val 0),
      nonNull_selTrue, sfind_buildSums]
    by_cases h : selFor pNan (rowsOf keys data) a = []
    · rw [if_pos h, h]
      rfl
    · rw [if_neg h]
      rfl
  rw [hfe]

/-- The single-aggregate mean values, canonicalized to the counts and sums
maps. -/
theorem gbMeanVals_eq (data : List F64) (keys : List String)
    (H : ∀ k ∈ keys, selFor pNan (rowsOf keys data) k ≠ []) :
    gbMeanVals data keys
      = (sortedKeys keys.dedup).map (fun k =>
          if 0 < (sfind (buildCounts (rowsOf keys data)) k).getD 0 then
            fdiv ((sfind (buildSums (rowsOf keys data)) k).getD (.val 0))
              (.val ((sfind (buildCounts (rowsOf keys data)) k).getD 0))
          else .nan) := by
  simp only [gbMeanVals]
  rw [sortedKeys_keysOf_buildSumCnt data keys H]
  have hfe : (fun k =>
        if 0 < ((sfind (buildSumCnt (rowsOf keys data)) k).getD (.val 0, 0)).2 then
          fdiv ((sfind (buildSumCnt (rowsOf keys data)) k).getD (.val 0, 0)).1
            (.val ((sfind (buildSumCnt (rowsOf keys data)) k).getD (.val 0, 0)).2)
        else F64.nan)
      = fun k =>
          if 0 < (sfind (buildCounts (rowsOf keys data)) k).getD 0 then
            fdiv ((sfind (buildSums (rowsOf keys data)) k).getD (.val 0))
              (.val ((sfind (buildCounts (rowsOf keys data)) k).getD 0))
          else F64.nan := by
    funext a
    rw [sfind_buildSumCnt, sfind_buildCounts, sfind_buildSums]
    by_cases h : selFor pNan (rowsOf keys data) a = []
    · rw [if_pos h, if_pos h, if_pos h]
      rfl
    · rw [if_neg h, if_neg h, if_neg h]
      rfl
  rw [hfe]

theorem gbCountVals_eq (data : List F64) (keys : List String) :
    gbCountVals data keys
      = (sortedKeys keys.dedup).map
        (fun k => F64.val ((sfind (buildCounts (rowsOf keys data)) k).getD 0)) := by
  simp only [gbCountVals]

theorem gbMinVals_eq (data : List F64) (keys : List String)
    (H : ∀ k ∈ keys, selFor pNan (rowsOf keys data) k ≠ []) :
    gbMinVals data keys
      = (sortedKeys keys.dedup).map
        (fun k => (sfind (buildMins (rowsOf keys data)) k).getD .nan) := by
  simp only [gbMinVals]
  rw [sortedKeys_keysOf_buildMins data keys H]

theorem gbMaxVals_eq (data : List F64) (keys : List String)
    (H : ∀ k ∈ keys, selFor pNan (rowsOf keys data) k ≠ []) :
    gbMaxVals data keys
      = (sortedKeys keys.dedup).map
        (fun k => (sfind (buildMaxs (rowsOf keys data)) k).getD .nan) := by
  simp only [gbMaxVals]
  rw [sortedKeys_keysOf_buildMaxs data keys H]

theorem gbStdVals_eq (data : List F64) (keys : List String)
    (H : ∀ k ∈ keys, selFor pNan (rowsOf keys data) k ≠ []) :
    gbStdVals data keys
      = (sortedKeys keys.dedup).map (fun k =>
          if 1 < (sfind (buildCounts (rowsOf keys data)) k).getD 0 then
            fsqrt (fdiv
              ((sfind (buildSSD (rowsOf keys data)
                  (mapMeans (buildCounts (rowsOf keys data))
                    (buildSums (rowsOf keys data)))) k).getD (.val 0))
              (.val (((sfind (buildCounts (rowsOf keys data)) k).getD 0 - 1 : ℕ))))
          else .nan) := by
  simp only [gbStdVals]
  rw [sortedKeys_keysOf_buildCounts data keys H]

theorem gbVarVals_eq (data : List F64) (keys : List String)
    (H : ∀ k ∈ keys, selFor pNan (rowsOf keys data) k ≠ []) :
    gbVarVals data keys
      = (sortedKeys keys.dedup).map (fun k =>
          if 1 < (sfind (buildCounts (rowsOf keys data)) k).getD 0 then
            fdiv
              ((sfind (buildSSD (rowsOf keys data)
                  (mapMeans (buildCounts (rowsOf keys data))
                    (buildSums (rowsOf keys data)))) k).getD (.val 0))
              (.val (((sfind (buildCounts (rowsOf keys data)) k).getD 0 - 1 : ℕ)))
          else .nan) := by
  simp only [gbVarVals]
  rw [sortedKeys_keysOf_buildCounts data keys H]

theorem multiSums_eq {rows : List (String × F64)} {mask : ℕ}
    (h : needSum mask = true) : multiSums rows mask = buildSums rows := by
  simp [multiSums, h]

theorem multiCounts_eq {rows : List (String × F64)} {mask : ℕ}
    (h : needCount mask = true) : multiCounts rows mask = buildCounts rows := by
  simp [multiCounts, h]

theorem multiMins_eq {rows : List (String × F64)} {mask : ℕ}
    (h : mask &&& 8 ≠ 0) : multiMins rows mask = buildMins rows := by
  simp [multiMins, h]

theorem multiMaxs_eq {rows : List (String × F64)} {mask : ℕ}
    (h : mask &&& 16 ≠ 0) : multiMaxs rows mask = buildMaxs rows := by
  simp [multiMaxs, h]

theorem multiMeans_eq {rows : List (String × F64)} {mask : ℕ}
    (h : mask &&& 2 ≠ 0 ∨ mask &&& 32 ≠ 0 ∨ mask &&& 64 ≠ 0) :
    multiMeans rows mask = mapMeans (buildCounts rows) (buildSums rows) := by
  have hS : needSum mask = true := by
    rcases h with h | h | h
    · exact needSum_of_bit2 h
    · exact needSum_of_bit32 h
    · exact needSum_of_bit64 h
  have hC : needCount mask = true := by
    rcases h with h | h | h
    · exact needCount_of_bit2 h
    · exact needCount_of_bit32 h
    · exact needCount_of_bit64 h
  have hcond : (mask &&& 2 ≠ 0 ∨ mask &&& 32 ≠ 0 ∨ mask &&& 64 ≠ 0) := h
  unfold multiMeans
  rw [multiSums_eq hS, multiCounts_eq hC, if_pos (by
    simp only [Bool.or_eq_true, decide_eq_true_eq, ne_eq]
    tauto)]

theorem multiSSD_eq {rows : List (String × F64)} {mask : ℕ}
    (h : mask &&& 32 ≠ 0 ∨ mask &&& 64 ≠ 0) :
    multiSSD rows mask
      = buildSSD rows (mapMeans (buildCounts rows) (buildSums rows)) := by
  unfold multiSSD
  rw [multiMeans_eq (Or.inr h), if_pos (by
    simp only [Bool.or_eq_true, decide_eq_true_eq, ne_eq]
    tauto)]

/-- C3, counterexample: for the all-NaN series `[NaN]` with key vector
`["a"]` and the count-only mask 4, the batched entry point produces an
empty aggregate (its key discovery only sees keys with a non-null
observation) while the single-aggregate count entry point produces `[0]`
for key `"a"` — the batched and single results differ. -/
theorem c3_counterexample :
    gbMultiVals [F64.nan] ["a"] 4 = [[]] ∧
    gbCountVals [F64.nan] ["a"] = [F64.val 0] ∧
    ([] : List F64) ≠ [F64.val 0] := by
  refine ⟨by decide, by decide, by decide⟩

/-- C3, amended: provided every distinct key has at least one non-null
observation, every aggregate series produced by the batched entry point
equals the series produced by the corresponding single-aggregate entry
point, in ascending bit order. -/
theorem c3_multi_matches_singles (data : List F64) (keys : List String)
    (mask : ℕ) (hlen : keys.length = data.length)
    (H : ∀ k ∈ keys, selFor pNan (rowsOf keys data) k ≠ []) :
    gbMultiVals data keys mask
      = (if mask &&& 1 ≠ 0 then [gbSumVals data keys] else []) ++
        (if mask &&& 2 ≠ 0 then [gbMeanVals data keys] else []) ++
        (if mask &&& 4 ≠ 0 then [gbCountVals data keys] else []) ++
        (if mask &&& 8 ≠ 0 then [gbMinVals data keys] else []) ++
        (if mask &&& 16 ≠ 0 then [gbMaxVals data keys] else []) ++
        (if mask &&& 32 ≠ 0 then [gbStdVals data keys] else []) ++
        (if mask &&& 64 ≠ 0 then [gbVarVals data keys] else []) := by
  simp only [gbMultiVals]
  refine congrArg₂ (· ++ ·)
    (congrArg₂ (· ++ ·)
      (congrArg₂ (· ++ ·)
        (congrArg₂ (· ++ ·)
          (congrArg₂ (· ++ ·)
            (congrArg₂ (· ++ ·) ?e1 ?e2) ?e3) ?e4) ?e5) ?e6) ?e7
  case e1 =>
    by_cases h : mask &&& 1 ≠ 0
    · rw [if_pos h, if_pos h,
        multiOrdered_eq data keys mask hlen H (Or.inr (Or.inl h)),
        multiSums_eq (needSum_of_bit1 h), gbSumVals_eq data keys hlen]
    · rw [if_neg h, if_neg h]
  case e2 =>
    by_cases h : mask &&& 2 ≠ 0
    · rw [if_pos h, if_pos h,
        multiOrdered_eq data keys mask hlen H (Or.inl (needCount_of_bit2 h)),
        multiSums_eq (needSum_of_bit2 h), multiCounts_eq (needCount_of_bit2 h),
        gbMeanVals_eq data keys H]
    · rw [if_neg h, if_neg h]
  case e3 =>
    by_cases h : mask &&& 4 ≠ 0
    · rw [if_pos h, if_pos h,
        multiOrdered_eq data keys mask hlen H (Or.inl (needCount_of_bit4 h)),
        multiCounts_eq (needCount_of_bit4 h), gbCountVals_eq data keys]
    · rw [if_neg h, if_neg h]
  case e4 =>
    by_cases h : mask &&& 8 ≠ 0
    · rw [if_pos h, if_pos h,
        multiOrdered_eq data keys mask hlen H (Or.inr (Or.inr (Or.inl h))),
        multiMins_eq h, gbMinVals_eq data keys H]
    · rw [if_neg h, if_neg h]
  case e5 =>
    by_cases h : mask &&& 16 ≠ 0
    · rw [if_pos h, if_pos h,
        multiOrdered_eq data keys mask hlen H (Or.inr (Or.inr (Or.inr h))),
        multiMaxs_eq h, gbMaxVals_eq data keys H]
    · rw [if_neg h, if_neg h]
  case e6 =>
    by_cases h : mask &&& 32 ≠ 0
    · rw [if_pos h, if_pos h,
        multiOrdered_eq data keys mask hlen H (Or.inl (needCount_of_bit32 h)),
        multiCounts_eq (needCount_of_bit32 h), multiSSD_eq (Or.inl h),
        gbStdVals_eq data keys H]
    · rw [if_neg h, if_neg h]
  case e7 =>
    by_cases h : mask &&& 64 ≠ 0
    · rw [if_pos h, if_pos h,
        multiOrdered_eq data keys mask hlen H (Or.inl (needCount_of_bit64 h)),
        multiCounts_eq (needCount_of_bit64 h), multiSSD_eq (Or.inr h),
        gbVarVals_eq data keys H]
    · rw [if_neg h, if_neg h]

/-- Witness for C3 (amended) at a concrete series, key vector and the full
mask 127. -/
theorem c3_multi_matches_singles_witness :
    gbMultiVals [F64.val 1, F64.val 2, F64.val 3, F64.nan]
        ["x", "y", "x", "y"] 127
      = (if (127 : ℕ) &&& 1 ≠ 0 then
          [gbSumVals [F64.val 1, F64.val 2, F64.val 3, F64.nan]
            ["x", "y", "x", "y"]] else []) ++
        (if (127 : ℕ) &&& 2 ≠ 0 then
          [gbMeanVals [F64.val 1, F64.val 2, F64.val 3, F64.nan]
            ["x", "y", "x", "y"]] else []) ++
        (if (127 : ℕ) &&& 4 ≠ 0 then
          [gbCountVals [F64.val 1, F64.val 2, F64.val 3, F64.nan]
            ["x", "y", "x", "y"]] else []) ++
        (if (127 : ℕ) &&& 8 ≠ 0 then
          [gbMinVals [F64.val 1, F64.val 2, F64.val 3, F64.nan]
            ["x", "y", "x", "y"]] else []) ++
        (if (127 : ℕ) &&& 16 ≠ 0 then
          [gbMaxVals [F64.val 1, F64.val 2, F64.val 3, F64.nan]
            ["x", "y", "x", "y"]] else []) ++
        (if (127 : ℕ) &&& 32 ≠ 0 then
          [gbStdVals [F64.val 1, F64.val 2, F64.val 3, F64.nan]
            ["x", "y", "x", "y"]] else []) ++
        (if (127 : ℕ) &&& 64 ≠ 0 then
          [gbVarVals [F64.val 1, F64.val 2, F64.val 3, F64.nan]
            ["x", "y", "x", "y"]] else []) :=
  c3_multi_matches_singles [F64.val 1, F64.val 2, F64.val 3, F64.nan]
    ["x", "y", "x", "y"] 127 (by decide) (by decide)

end BoxFrame
